import Mathlib

/-!
Verification of the json_viz record-to-presentation pipeline
(`src/json_viz/core.py`, class `JsonVisualizer`).

Strings are modelled as `List Char`. Python whitespace and `re` `\s` are
modelled on their ASCII fragment. External collaborators (HTTP client,
filesystem, base64 codec, image codec) are modelled as an explicit `World`
record of pure oracles; Python exceptions become `Except`.
-/

namespace JsonViz

/-- Strings as lists of characters. -/
abbrev Str := List Char

/-- Coerce a Lean string literal to the `List Char` model. -/
def strL (s : String) : Str := s.data

/-- ASCII fragment of Python `str.isspace` / regex `\s`. -/
def pyIsSpace (c : Char) : Bool :=
  c = ' ' || c = '\t' || c = '\n' || c = '\r' || c = '\x0b' || c = '\x0c'

/-- Python `str.lower` (ASCII fragment). -/
def lowerL (s : Str) : Str := s.map Char.toLower

/-- Boolean "p is an initial segment of l". -/
def isPref : Str → Str → Bool
  | [], _ => true
  | _ :: _, [] => false
  | p :: ps, c :: cs => p == c && isPref ps cs

/-- Boolean "p occurs as a contiguous substring of l" (Python `p in l`). -/
def hasSub (p : Str) : Str → Bool
  | [] => isPref p []
  | c :: cs => isPref p (c :: cs) || hasSub p cs

/-- Fuelled worker for `replaceList`; fuel bounds the number of scan steps. -/
def replAux (pat rep : Str) : Nat → Str → Str
  | _, [] => []
  | 0, l => l
  | f+1, c :: cs =>
    if isPref pat (c :: cs) && !pat.isEmpty then
      rep ++ replAux pat rep f ((c :: cs).drop pat.length)
    else c :: replAux pat rep f cs

/-- Python `l.replace(pat, rep)`: leftmost non-overlapping replacement. -/
def replaceList (pat rep l : Str) : Str := replAux pat rep l.length l

/-- Python `str.strip()` (ASCII whitespace fragment). -/
def pyStrip (l : Str) : Str :=
  ((l.dropWhile pyIsSpace).reverse.dropWhile pyIsSpace).reverse

/-- Python `text.split('\n', 1)[0]`: everything before the first newline. -/
def firstLine (l : Str) : Str := l.takeWhile (fun c => c != '\n')

/-- Python `sep.join(parts)`. -/
def joinSep (sep : Str) : List Str → Str
  | [] => []
  | [s] => s
  | s :: ss => s ++ sep ++ joinSep sep ss

/-- Opening replacement text of the math rewrite (`\( ` with trailing space). -/
def mathO : Str := strL "\\( "

/-- Closing replacement text of the math rewrite (` \)` with leading space). -/
def mathC : Str := strL " \\)"

/-- State machine for `re.sub(r'\$(.*?)\$', r'\( \1 \)', text)` (no DOTALL:
`.` does not match a newline; lazy group; leftmost non-overlapping matches).
`none` state: outside a candidate span; `some acc`: inside a span opened by
`$`, with the (reversed) content so far. A newline aborts the candidate span,
exactly as the regex fails to match across `\n`. -/
def mathSubGo : Str → Option Str → Str
  | [], none => []
  | [], some acc => '$' :: acc.reverse
  | c :: cs, none => if c = '$' then mathSubGo cs (some []) else c :: mathSubGo cs none
  | c :: cs, some acc =>
    if c = '$' then mathO ++ acc.reverse ++ mathC ++ mathSubGo cs none
    else if c = '\n' then '$' :: acc.reverse ++ '\n' :: mathSubGo cs none
    else mathSubGo cs (some (c :: acc))

/-- The math-delimiter rewrite pass of `process_textual_content`. -/
def mathSub (l : Str) : Str := mathSubGo l none

/-- The fixed set of domain-specific tags escaped by `process_textual_content`. -/
def specialTags : List Str :=
  [strL "<image>", strL "<img>", strL "<think>", strL "</think>",
   strL "<answer>", strL "</answer>", strL "<observe>", strL "</observe>",
   strL "<highlight>", strL "</highlight>"]

/-- Python `tag.replace('<', '&lt;').replace('>', '&gt;')`. -/
def escAngles (t : Str) : Str :=
  replaceList (strL ">") (strL "&gt;") (replaceList (strL "<") (strL "&lt;") t)

/-- The special-tag escaping loop of `process_textual_content`. -/
def escTags (t : Str) : Str :=
  specialTags.foldl (fun acc tag => replaceList tag (escAngles tag) acc) t

/-- Literal ```` ``` ````. -/
def ccc : Str := strL "```"

/-- Literal `markdown` (the optional group-1 tag of the fence pattern). -/
def mdWord : Str := strL "markdown"

/-- Length of the maximal leading whitespace run. -/
def wsCount (l : Str) : Nat := (l.takeWhile pyIsSpace).length

/-- Try to match `` ``` `` after skipping exactly `k` characters. On success
return the remainder after the closing fence. -/
def closAt (l : Str) (k : Nat) : Option Str :=
  if isPref ccc (l.drop k) then some ((l.drop k).drop 3) else none

/-- Greedy `\s*` before the closing fence: try the longest whitespace skip
first, backtracking downwards. -/
def closTryAux (l : Str) : Nat → Option Str
  | 0 => closAt l 0
  | k+1 =>
    match closAt l (k+1) with
    | some r => some r
    | none => closTryAux l k

/-- Match `\s*` + closing `` ``` `` at the current position (greedy). -/
def closTry (l : Str) : Option Str := closTryAux l (wsCount l)

/-- Lazy `(.*?)` loop: at every position first try to close (trailing `\s*`
then `` ``` ``), else extend the group by one character (DOTALL: any char). -/
def lazyLoop : Str → Str → Option (Str × Str)
  | [], acc =>
    match closTry [] with
    | some rest => some (acc.reverse, rest)
    | none => none
  | c :: cs, acc =>
    match closTry (c :: cs) with
    | some rest => some (acc.reverse, rest)
    | none => lazyLoop cs (c :: acc)

/-- Greedy leading `\s*`: try the longest whitespace skip first, then
backtrack downwards, each time running the lazy group loop. -/
def leadTryAux (l : Str) : Nat → Option (Str × Str)
  | 0 => lazyLoop l []
  | w+1 =>
    match lazyLoop (l.drop (w+1)) [] with
    | some r => some r
    | none => leadTryAux l w

/-- Match `\s*(.*?)\s*` + closing fence at the current position. -/
def leadTry (l : Str) : Option (Str × Str) := leadTryAux l (wsCount l)

/-- Attempt the pattern ```` ```(markdown)?\s*(.*?)\s*``` ```` (DOTALL) at the
current position; returns (group 1, group 2, remainder after the match).
The optional group is tried first (regex `?` is greedy), with backtracking. -/
def fenceMatchAt (l : Str) : Option (Str × Str × Str) :=
  if isPref ccc l then
    let after := l.drop 3
    let withMd : Option (Str × Str × Str) :=
      if isPref mdWord after then
        (leadTry (after.drop 8)).map (fun p => (mdWord, p.1, p.2))
      else none
    match withMd with
    | some r => some r
    | none => (leadTry after).map (fun p => (([] : Str), p.1, p.2))
  else none

/-- Worker for `re.findall`: scan left to right, taking non-overlapping
matches; on failure advance one character. Fuel bounds the scan steps. -/
def fenceScanAux : Nat → Str → List (Str × Str)
  | 0, _ => []
  | _+1, [] => []
  | f+1, c :: cs =>
    match fenceMatchAt (c :: cs) with
    | some (g1, g2, rem) => (g1, g2) :: fenceScanAux f rem
    | none => fenceScanAux f cs

/-- `re.findall(r'```(markdown)?\s*(.*?)\s*```', text, re.DOTALL)`. -/
def fenceScan (l : Str) : List (Str × Str) := fenceScanAux (l.length + 1) l

/-- The markdown code-block extraction step of `process_textual_content`
(lines 110-118): when the first line contains a fence delimiter, replace the
text by the inner content of the first match with a non-empty group 2. -/
def fenceStep (isMd : Bool) (t : Str) : Str :=
  if isMd || (!t.isEmpty && hasSub ccc (firstLine t)) then
    match ((fenceScan t).map Prod.snd).filter (fun g => !g.isEmpty) with
    | [] => t
    | e :: _ => e
  else t

/-- Literal newline. -/
def nlS : Str := strL "\n"

/-- Literal `<br>`. -/
def brS : Str := strL "<br>"

/-- Literal two-character backslash-n. -/
def bsnS : Str := strL "\\n"

/-- Literal `$$`. -/
def ddS : Str := strL "$$"

/-- Literal `$`. -/
def dS : Str := strL "$"

/-- `JsonVisualizer.process_textual_content` on a string argument:
fence extraction, strip, newline conversion, special-tag escaping,
double-dollar collapse, then the `$...$` math rewrite. -/
def processTextualContent (isMd : Bool) (t : Str) : Str :=
  let t1 := fenceStep isMd t
  let t2 := replaceList bsnS brS (replaceList nlS brS (pyStrip t1))
  let t3 := escTags t2
  let t4 := replaceList ddS dS t3
  mathSub t4

/-! ## Cell values and the image normalizer -/

/-- Python values that can sit in a dataframe cell: JSON values (floats
omitted from the model) plus the image-like objects `image_to_html` accepts
(`pathlib.Path`, `io.BytesIO`, PIL images, the latter two carrying their
byte content; a PIL image carries its PNG re-encoding). -/
inductive Value where
  | none
  | bool (b : Bool)
  | int (n : Int)
  | str (s : Str)
  | list (vs : List Value)
  | dict (kvs : List (Str × Value))
  | path (s : Str)
  | bytesB (bs : List Nat)
  | pilImage (bs : List Nat)

/-- Python exceptions that the modelled code can raise. -/
inductive PyErr where
  /-- a `requests` connection-level error -/
  | connErr
  /-- `requests.HTTPError` from `raise_for_status` -/
  | httpStatus
  /-- `TypeError` from `json.dumps` on a non-JSON object -/
  | typeErr
  deriving DecidableEq

/-- Model of a `requests` response: success flag and body bytes. -/
structure HttpResp where
  ok : Bool
  content : List Nat

/-- The ambient world: HTTP fetch (may raise), file read (`none` models
`FileNotFoundError`), and the base64 codec. All other behaviour is pure. -/
structure World where
  fetch : Str → Except PyErr HttpResp
  readFile : Str → Option (List Nat)
  b64 : List Nat → Str

/-- Literal `http://`. -/
def httpPre : Str := strL "http://"

/-- Literal `https://`. -/
def httpsPre : Str := strL "https://"

/-- `JsonVisualizer.image_to_base64` with `to_base64=True`. URL strings are
fetched (`requests.get` then `raise_for_status`, both of which raise on
failure); local reads swallow only `FileNotFoundError` into `b''`; empty
bytes short-circuit the base64 encoding and return the empty (falsy) value. -/
def imageToBase64 (w : World) (v : Value) : Except PyErr Str := do
  let byteArr ←
    match v with
    | .str s =>
      if isPref httpPre s || isPref httpsPre s then do
        let r ← w.fetch s
        if r.ok then pure r.content else throw .httpStatus
      else pure ((w.readFile s).getD [])
    | .path s => pure ((w.readFile s).getD [])
    | .bytesB bs => pure bs
    | .pilImage bs => pure bs
    | _ => pure []
  if byteArr.isEmpty then pure [] else pure (w.b64 byteArr)

/-- The "No image available" placeholder fragment. -/
def noImageDiv : Str := strL "<div class=\"missing-image\">No image available</div>"

/-- The "Image not found" placeholder fragment. -/
def notFoundDiv : Str := strL "<div class=\"missing-image\">Image not found</div>"

/-- `JsonVisualizer.image_to_html`: unsupported or falsy input degrades to
the "No image available" placeholder; an empty byte result degrades to
"Image not found"; otherwise an `<img>` data-URI tag is produced. Errors
raised by `image_to_base64` propagate. -/
def imageToHtml (w : World) (v : Value) (width : Nat) : Except PyErr Str :=
  if (match v with
      | .str s => s.isEmpty
      | .path _ => false
      | .bytesB _ => false
      | .pilImage _ => false
      | _ => true) then
    pure noImageDiv
  else do
    let enc ← imageToBase64 w v
    if enc.isEmpty then pure notFoundDiv
    else
      pure (strL "<img src=\"data:image/png;base64," ++ enc ++
            strL "\" width=\"" ++ strL (toString width) ++
            strL "\" alt=\"Embedded Image\">")

/-! ## JSON serialization and Python stringification -/

/-- JSON string escaping as in `json.dumps` with `ensure_ascii=False`. -/
def jsonEscChar (c : Char) : Str :=
  if c = '"' then strL "\\\""
  else if c = '\\' then strL "\\\\"
  else if c = '\n' then strL "\\n"
  else if c = '\r' then strL "\\r"
  else if c = '\t' then strL "\\t"
  else if c = '\x08' then strL "\\b"
  else if c = '\x0c' then strL "\\f"
  else if c.toNat < 32 then
    strL "\\u00" ++ [(Nat.digitChar (c.toNat / 16)), (Nat.digitChar (c.toNat % 16))]
  else [c]

/-- Quoted JSON string literal. -/
def jsonQuote (s : Str) : Str := '"' :: (s.flatMap jsonEscChar) ++ ['"']

/-- Indentation used by `json.dumps(..., indent=2)` at nesting level `lvl`. -/
def indentS (lvl : Nat) : Str := List.replicate (2 * lvl) ' '

/-- Render the already-serialized items of a JSON container with
2-space indentation, as `json.dumps(..., indent=2)` lays them out. -/
def jsonWrap (openC closeC : Char) (lvl : Nat) (items : List Str) : Str :=
  openC :: '\n' :: joinSep (strL ",\n") (items.map (fun it => indentS (lvl + 1) ++ it)) ++
    '\n' :: indentS lvl ++ [closeC]

/-- `json.dumps(v, indent=2, ensure_ascii=False)` at nesting level `lvl`;
raises `TypeError` on non-JSON objects, as `json.dumps` does. -/
def jsonDumpsAt (lvl : Nat) : Value → Except PyErr Str
  | .none => pure (strL "null")
  | .bool true => pure (strL "true")
  | .bool false => pure (strL "false")
  | .int n => pure (strL (toString n))
  | .str s => pure (jsonQuote s)
  | .list [] => pure (strL "[]")
  | .list (v :: vs) => do
    let items ← (v :: vs).attach.mapM (fun x => jsonDumpsAt (lvl + 1) x.1)
    pure (jsonWrap '[' ']' lvl items)
  | .dict [] => pure (strL "\x7b\x7d")
  | .dict (kv :: kvs) => do
    let items ← (kv :: kvs).attach.mapM
      (fun x => do
        let s ← jsonDumpsAt (lvl + 1) x.1.2
        pure (jsonQuote x.1.1 ++ strL ": " ++ s))
    pure (jsonWrap '\x7b' '\x7d' lvl items)
  | .path _ => throw .typeErr
  | .bytesB _ => throw .typeErr
  | .pilImage _ => throw .typeErr
termination_by v => sizeOf v
decreasing_by
  · have := List.sizeOf_lt_of_mem x.2
    simp only [Value.list.sizeOf_spec]
    omega
  · have h1 := List.sizeOf_lt_of_mem x.2
    have h2 : sizeOf x.1.2 < sizeOf x.1 := by
      obtain ⟨⟨a, b⟩, hx⟩ := x
      simp
    simp only [Value.dict.sizeOf_spec]
    omega

/-- `json.dumps(v, indent=2, ensure_ascii=False)`. -/
def jsonDumps (v : Value) : Except PyErr Str := jsonDumpsAt 0 v

/-- Python `repr` of a value (container cases simplified: strings are
single-quoted without escape subtleties; these cases are unreachable in the
pipeline because containers are serialized before stringification). -/
def pyRepr : Value → Str
  | .none => strL "None"
  | .bool true => strL "True"
  | .bool false => strL "False"
  | .int n => strL (toString n)
  | .str s => '\'' :: s ++ ['\'']
  | .list vs => '[' :: joinSep (strL ", ") (vs.attach.map (fun x => pyRepr x.1)) ++ [']']
  | .dict kvs =>
    '\x7b' :: joinSep (strL ", ")
      (kvs.attach.map (fun x => '\'' :: x.1.1 ++ strL "': " ++ pyRepr x.1.2)) ++ ['\x7d']
  | .path s => s
  | .bytesB _ => strL "<_io.BytesIO object>"
  | .pilImage _ => strL "<PIL.Image.Image object>"
termination_by v => sizeOf v
decreasing_by
  · have := List.sizeOf_lt_of_mem x.2
    simp only [Value.list.sizeOf_spec]
    omega
  · have h1 := List.sizeOf_lt_of_mem x.2
    have h2 : sizeOf x.1.2 < sizeOf x.1 := by
      obtain ⟨⟨a, b⟩, hx⟩ := x
      simp
    simp only [Value.dict.sizeOf_spec]
    omega

/-- Python `str(v)`: identity on strings, `repr` otherwise (the scalar
cases are spelled out so that the function stays structurally reducible). -/
def pyStr : Value → Str
  | .str s => s
  | .none => strL "None"
  | .bool true => strL "True"
  | .bool false => strL "False"
  | .int n => strL (toString n)
  | .path s => s
  | .bytesB bs => pyRepr (.bytesB bs)
  | .pilImage bs => pyRepr (.pilImage bs)
  | .list vs => pyRepr (.list vs)
  | .dict kvs => pyRepr (.dict kvs)

/-! ## The dataframe model and `process_dataframe` -/

/-- Except-valued map over a list, mirroring a Python loop that may raise. -/
def mapE {α β : Type} (f : α → Except PyErr β) : List α → Except PyErr (List β)
  | [] => pure []
  | a :: as => do
    let b ← f a
    let bs ← mapE f as
    pure (b :: bs)

/-- A pandas DataFrame, column-major: column names with their cells, in
column order. All columns of a well-formed frame have the same length. -/
structure Df where
  cols : List (Str × List Value)

/-- Column names, in order. -/
def namesOf (df : Df) : List Str := df.cols.map Prod.fst

/-- Number of rows (length of the first column; 0 for a column-less frame). -/
def nrows (df : Df) : Nat :=
  match df.cols with
  | [] => 0
  | c :: _ => c.2.length

/-- Well-formedness: every column has `nrows` cells. -/
def WFdf (df : Df) : Prop := ∀ c ∈ df.cols, c.2.length = nrows df

instance (df : Df) : Decidable (WFdf df) :=
  inferInstanceAs (Decidable (∀ c ∈ df.cols, c.2.length = nrows df))

/-- Python `isinstance(x, (dict, list))`. -/
def isDictList : Value → Bool
  | .dict _ => true
  | .list _ => true
  | _ => false

/-- The per-cell body of the structured-column pass:
`json.dumps(x, indent=2, ensure_ascii=False).replace('\n','<br>').replace(' ','&nbsp;')`
when the cell is a dict or list, otherwise the cell unchanged. -/
def dumpIfStruct (v : Value) : Except PyErr Value :=
  if isDictList v then do
    let s ← jsonDumps v
    pure (.str (replaceList (strL " ") (strL "&nbsp;") (replaceList nlS brS s)))
  else pure v

/-- Pass 1 of `process_dataframe` (lines 159-162): every column containing a
dict or list cell is mapped through `dumpIfStruct`. -/
def structPass (cols : List (Str × List Value)) : Except PyErr (List (Str × List Value)) :=
  mapE (fun c =>
    if c.2.any isDictList then do
      let cs ← mapE dumpIfStruct c.2
      pure (c.1, cs)
    else pure c) cols

/-- Column-name test for the image pass: `'image' in col.lower() or 'graph' in col.lower()`. -/
def isImgName (n : Str) : Bool :=
  hasSub (strL "image") (lowerL n) || hasSub (strL "graph") (lowerL n)

/-- One image-pass cell: `JsonVisualizer.image_to_html(x)` (default width 320). -/
def imgCell (w : World) (v : Value) : Except PyErr Value := do
  let h ← imageToHtml w v 320
  pure (.str h)

/-- Pass 2 of `process_dataframe` (lines 164-167): image-named columns are
mapped through `image_to_html`. -/
def imgPass (w : World) (cols : List (Str × List Value)) :
    Except PyErr (List (Str × List Value)) :=
  mapE (fun c =>
    if isImgName c.1 then do
      let cs ← mapE (imgCell w) c.2
      pure (c.1, cs)
    else pure c) cols

/-- The built-in keyword list of the textual-column heuristic. -/
def builtinPats : List Str :=
  [strL "result", strL "prompt", strL "question", strL "answer", strL "q & a",
   strL "predict", strL "judge", strL "caption", strL "cot", strL "claude",
   strL "res", strL "parse", strL "truth", strL "desc", strL "info"]

/-- Default `textual_cols` when the caller passes `None`. -/
def defaultTextualCols : List Str :=
  [strL "q & a", strL "result", strL "question", strL "answer"]

/-- The `is_textual` test of `process_dataframe` (lines 172-176):
`col in textual_cols or col.lower() in textual_cols or any(pattern in col.lower() ...)`. -/
def isTextualCol (textualCols : List Str) (col : Str) : Bool :=
  textualCols.contains col || textualCols.contains (lowerL col) ||
    builtinPats.any (fun p => hasSub p (lowerL col))

/-- One textual-pass cell: `process_textual_content(x)` (stringifying
non-string cells first, as the function itself does). -/
def processTextualValue (v : Value) : Value :=
  .str (processTextualContent false (pyStr v))

/-- Pass 3 of `process_dataframe` (lines 170-179): textual columns are
mapped through `process_textual_content`. -/
def txtPass (textualCols : List Str) (cols : List (Str × List Value)) :
    List (Str × List Value) :=
  cols.map (fun c =>
    if isTextualCol textualCols c.1 then (c.1, c.2.map processTextualValue) else c)

/-- Row `i`'s cell in the column named `n` (as `x[col]` inside `df.apply(axis=1)`). -/
def cellByName (df : Df) (n : Str) (i : Nat) : Value :=
  match df.cols.find? (fun c => c.1 == n) with
  | some c => c.2.getD i Value.none
  | Option.none => Value.none

/-- `df[name] = cells`: overwrite the column in place if the name exists,
else append it as the last column. -/
def assignCol (df : Df) (n : Str) (cells : List Value) : Df :=
  if df.cols.any (fun c => c.1 == n) then
    ⟨df.cols.map (fun c => if c.1 == n then (n, cells) else c)⟩
  else ⟨df.cols ++ [(n, cells)]⟩

/-- Literal `" & "`. -/
def ampSep : Str := strL " & "

/-- Pass 4 of `process_dataframe` (lines 181-195): merge the requested
columns when at least two are present: build the `<br>`-joined row strings,
assign them under the `" & "`-joined name, drop the source columns, and
move the merged column to the front. -/
def mergeStep (mc : Option (List Str)) (df : Df) : Df :=
  match mc with
  | Option.none => df
  | some mcl =>
    if mcl.length > 1 then
      let valid := mcl.filter (fun c => df.cols.any (fun col => col.1 == c))
      if valid.length > 1 then
        let newName := joinSep ampSep valid
        let newCells := (List.range (nrows df)).map
          (fun i => Value.str (joinSep brS (valid.map (fun c => pyStr (cellByName df c i)))))
        let df1 := assignCol df newName newCells
        let df2 : Df := ⟨df1.cols.filter (fun c => !(valid.contains c.1))⟩
        let newCol := df2.cols.find? (fun c => c.1 == newName)
        let others := df2.cols.filter (fun c => !(c.1 == newName))
        ⟨(match newCol with | some c => [c] | Option.none => []) ++ others⟩
      else df
    else df

/-- Pass 5 of `process_dataframe` (lines 197-199): drop the requested
columns that are present (absent names are ignored). -/
def dropStep (dcl : List Str) (df : Df) : Df :=
  if dcl.isEmpty then df else ⟨df.cols.filter (fun c => !(dcl.contains c.1))⟩

/-- `JsonVisualizer.process_dataframe(df, textual_cols, merge_cols, drop_cols)`. -/
def processDataframe (w : World) (tc mc dc : Option (List Str)) (df : Df) :
    Except PyErr Df := do
  let textualCols := tc.getD defaultTextualCols
  let dropCols := dc.getD []
  let cols1 ← structPass df.cols
  let cols2 ← imgPass w cols1
  let cols3 := txtPass textualCols cols2
  let df4 := mergeStep mc ⟨cols3⟩
  pure (dropStep dropCols df4)

/-- The column-name effect of `mergeStep`, as a pure function on the name
list (used to show that output column names depend only on input names). -/
def mergeNamesF (mc : Option (List Str)) (ns : List Str) : List Str :=
  match mc with
  | Option.none => ns
  | some mcl =>
    if mcl.length > 1 then
      let valid := mcl.filter (fun c => ns.contains c)
      if valid.length > 1 then
        let newName := joinSep ampSep valid
        let ns1 := if ns.contains newName then ns else ns ++ [newName]
        let ns2 := ns1.filter (fun n => !(valid.contains n))
        (if ns2.contains newName then [newName] else []) ++
          ns2.filter (fun n => !(n == newName))
      else ns
    else ns

/-- The column-name effect of `dropStep`. -/
def dropNamesF (dcl : List Str) (ns : List Str) : List Str :=
  if dcl.isEmpty then ns else ns.filter (fun n => !(dcl.contains n))

/-- The single-row slice of a column at row `i`. -/
def sliceCol (i : Nat) (c : Str × List Value) : Str × List Value :=
  (c.1, [c.2.getD i Value.none])

/-- The single-row slice of a frame at row `i` (same columns, row `i` only). -/
def sliceDf (i : Nat) (df : Df) : Df := ⟨df.cols.map (sliceCol i)⟩

/-- Row selection `df.loc[sel]` (as produced by `df.sample(...)` in
`visualize`): the same columns, keeping row `sel[j]` of the input as row `j`
of the output. -/
def selDf (sel : List Nat) (df : Df) : Df :=
  ⟨df.cols.map (fun c => (c.1, sel.map (fun i => c.2.getD i Value.none)))⟩

/-! ## Client-side resampling (the inline script of `generate_html`) -/

/-- `[arr[i], arr[j]] = [arr[j], arr[i]]` on a list of indices; both values
are read from the original list before writing, as in the JS destructuring. -/
def swapL (l : List Nat) (i j : Nat) : List Nat :=
  (l.set i (l.getD j 0)).set j (l.getD i 0)

/-- The Fisher-Yates loop `for (let i = len-1; i > 0; i--)`, where `r i`
models `Math.floor(Math.random() * (i + 1))`. -/
def fyLoop (r : Nat → Nat) : Nat → List Nat → List Nat
  | 0, arr => arr
  | i+1, arr => fyLoop r i (swapL arr (i+1) (r (i+1)))

/-- Fisher-Yates shuffle of `Array.from(Array(n).keys())`. -/
def fyShuffle (r : Nat → Nat) (n : Nat) : List Nat :=
  fyLoop r (n - 1) (List.range n)

/-- Client-side table state touched by `resampleData`: the displayed row set
and the text of the `.badge.bg-primary` row-count badge. -/
structure TableState where
  rows : List (List Value)
  badge : Str

/-- The `resampleData` handler of the embedded script (lines 388-412):
validate the requested size, shuffle the indices of the embedded full
dataset, take the first `size` of them, replace the table rows with the
corresponding full-dataset rows, and update the row-count badge.
Out-of-range sizes leave the state untouched. -/
def resampleData (r : Nat → Nat) (dataRows : List (List Value)) (size : Int)
    (st : TableState) : TableState :=
  if 0 < size ∧ size ≤ (dataRows.length : Int) then
    let idx := fyShuffle r dataRows.length
    let sampled := (idx.take size.toNat).map (fun i => dataRows.getD i [])
    { rows := sampled, badge := strL (toString size) ++ strL " rows" }
  else st

/-- The spec sentence's notion of hint matching, written from the claim's
words for comparison with the code's `isTextualCol`: the column name matches
some hint up to case. -/
def ciHintMatch (hints : List Str) (col : Str) : Bool :=
  hints.any (fun h => lowerL h == lowerL col)

/-- Characters that none of the textual-pipeline stages touch: no math
delimiter, newline, fence backtick, backslash, or opening angle bracket. -/
def benignChar (c : Char) : Bool :=
  !(c = '$' || c = '\n' || c = '`' || c = '\\' || c = '<')

/-- No two adjacent dollar signs anywhere in the string. -/
def adjFree : Str → Bool
  | a :: b :: r => !(a = '$' && b = '$') && adjFree (b :: r)
  | _ => true

/-- A world whose fetches all fail with a connection error and whose
filesystem is empty. -/
def wErr : World := ⟨fun _ => Except.error PyErr.connErr, fun _ => Option.none,
  fun _ => strL "QUJD"⟩

/-- A world whose fetches all return a failed HTTP status. -/
def wBad : World := ⟨fun _ => Except.ok ⟨false, [1]⟩, fun _ => Option.none,
  fun _ => strL "QUJD"⟩

/-! ## Core string lemmas -/

theorem isPref_iff {p l : Str} : isPref p l = true ↔ ∃ t, l = p ++ t := by
  induction p generalizing l with
  | nil => simp [isPref]
  | cons c p ih =>
    cases l with
    | nil => simp [isPref]
    | cons d l =>
      simp only [isPref, Bool.and_eq_true, beq_iff_eq, ih, List.cons_append]
      constructor
      · rintro ⟨rfl, t, rfl⟩
        exact ⟨t, rfl⟩
      · rintro ⟨t, h⟩
        cases h
        exact ⟨rfl, t, rfl⟩

theorem isPref_append (p t : Str) : isPref p (p ++ t) = true :=
  isPref_iff.mpr ⟨t, rfl⟩

theorem isPref_length_le {p l : Str} (h : isPref p l = true) : p.length ≤ l.length := by
  obtain ⟨t, rfl⟩ := isPref_iff.mp h
  simp

theorem isPref_head {c d : Char} {p l : Str} (h : isPref (c :: p) (d :: l) = true) :
    c = d := by
  simp only [isPref, Bool.and_eq_true, beq_iff_eq] at h
  exact h.1

theorem isPref_false_of_head_ne {c d : Char} {p l : Str} (h : c ≠ d) :
    isPref (c :: p) (d :: l) = false := by
  cases hp : isPref (c :: p) (d :: l) with
  | false => rfl
  | true => exact absurd (isPref_head hp) h

theorem hasSub_iff {p l : Str} : hasSub p l = true ↔ ∃ u v, l = u ++ p ++ v := by
  induction l with
  | nil =>
    simp only [hasSub, isPref_iff]
    constructor
    · rintro ⟨t, h⟩
      exact ⟨[], t, h⟩
    · rintro ⟨u, v, h⟩
      rw [List.nil_eq, List.append_assoc] at h
      rw [List.append_eq_nil] at h
      exact ⟨v, by simp [← h.1, h.2]⟩
  | cons c cs ih =>
    simp only [hasSub, Bool.or_eq_true, isPref_iff, ih]
    constructor
    · rintro (⟨t, h⟩ | ⟨u, v, rfl⟩)
      · exact ⟨[], t, by simp [h]⟩
      · exact ⟨c :: u, v, by simp⟩
    · rintro ⟨u, v, h⟩
      cases u with
      | nil => exact Or.inl ⟨v, by simpa using h⟩
      | cons x u =>
        rw [List.cons_append, List.cons_append, List.cons.injEq] at h
        exact Or.inr ⟨u, v, h.2⟩

theorem hasSub_of_decomp (p u v : Str) : hasSub p (u ++ p ++ v) = true :=
  hasSub_iff.mpr ⟨u, v, rfl⟩

theorem mem_of_hasSub {p l : Str} (h : hasSub p l = true) {c : Char} (hc : c ∈ p) :
    c ∈ l := by
  obtain ⟨u, v, rfl⟩ := hasSub_iff.mp h
  simp [hc]

theorem hasSub_false_of_not_mem {p l : Str} {c : Char} (hc : c ∈ p) (hl : c ∉ l) :
    hasSub p l = false := by
  cases h : hasSub p l with
  | false => rfl
  | true => exact absurd (mem_of_hasSub h hc) hl

theorem markerAlign {c : Char} {x y u v : Str} (hx : c ∉ x) (hu : c ∉ u)
    (h : x ++ c :: y = u ++ c :: v) : x = u ∧ y = v := by
  induction x generalizing u with
  | nil =>
    cases u with
    | nil => simpa using h
    | cons d u =>
      simp only [List.nil_append, List.cons_append, List.cons.injEq] at h
      exact absurd (h.1 ▸ List.mem_cons_self d u) hu
  | cons d x ih =>
    cases u with
    | nil =>
      simp only [List.cons_append, List.nil_append, List.cons.injEq] at h
      exact absurd (h.1.symm ▸ List.mem_cons_self d x) hx
    | cons e u =>
      simp only [List.cons_append, List.cons.injEq] at h
      obtain ⟨rfl, h2⟩ := h
      have := ih (fun hm => hx (List.mem_cons_of_mem _ hm))
        (fun hm => hu (List.mem_cons_of_mem _ hm)) h2
      exact ⟨by rw [this.1], this.2⟩

theorem isPref_of_isPref_append {p x y : Str} (h : isPref p (x ++ y) = true)
    (hl : p.length ≤ x.length) : isPref p x = true := by
  induction p generalizing x with
  | nil => simp [isPref]
  | cons c p ih =>
    cases x with
    | nil => simp at hl
    | cons d x =>
      simp only [List.cons_append] at h
      simp only [isPref, Bool.and_eq_true, beq_iff_eq] at h ⊢
      exact ⟨h.1, ih h.2 (by simpa using hl)⟩

theorem commonPref {p q l : Str} (hp : isPref p l = true) (hq : isPref q l = true)
    (hl : p.length ≤ q.length) : isPref p q = true := by
  obtain ⟨t, rfl⟩ := isPref_iff.mp hq
  exact isPref_of_isPref_append hp hl

/-! ## Lemmas about `replaceList` -/

theorem replAux_fuel {pat rep : Str} : ∀ {f g : Nat} {l : Str},
    l.length ≤ f → l.length ≤ g → replAux pat rep f l = replAux pat rep g l := by
  intro f
  induction f with
  | zero =>
    intro g l hf _
    have : l = [] := List.eq_nil_of_length_eq_zero (Nat.le_zero.mp hf)
    subst this
    cases g <;> rfl
  | succ f ih =>
    intro g l hf hg
    cases l with
    | nil => cases g <;> rfl
    | cons c cs =>
      cases g with
      | zero => simp at hg
      | succ g =>
        simp only [replAux]
        by_cases hmb : (isPref pat (c :: cs) && !pat.isEmpty) = true
        · rw [if_pos hmb, if_pos hmb]
          have hplen : 1 ≤ pat.length := by
            rcases Bool.and_eq_true .. |>.mp hmb with ⟨_, hne⟩
            cases pat with
            | nil => simp at hne
            | cons _ _ => simp
          have hd : ((c :: cs).drop pat.length).length ≤ f := by
            simp only [List.length_drop, List.length_cons]
            simp only [List.length_cons] at hf
            omega
          have hd' : ((c :: cs).drop pat.length).length ≤ g := by
            simp only [List.length_drop, List.length_cons]
            simp only [List.length_cons] at hg
            omega
          rw [ih hd hd']
        · rw [if_neg hmb, if_neg hmb]
          have hc : cs.length ≤ f := by simp only [List.length_cons] at hf; omega
          have hc' : cs.length ≤ g := by simp only [List.length_cons] at hg; omega
          rw [ih hc hc']

theorem replNo {pat rep l : Str} (h : hasSub pat l = false) :
    replaceList pat rep l = l := by
  rw [replaceList]
  suffices H : ∀ f (l : Str), l.length ≤ f → hasSub pat l = false → replAux pat rep f l = l from
    H l.length l (Nat.le_refl _) h
  intro f
  induction f with
  | zero =>
    intro l hf _
    have : l = [] := List.eq_nil_of_length_eq_zero (Nat.le_zero.mp hf)
    subst this
    rfl
  | succ f ih =>
    intro l hf hno
    cases l with
    | nil => rfl
    | cons c cs =>
      simp only [hasSub, Bool.or_eq_false_iff] at hno
      simp only [replAux, hno.1, Bool.false_and, if_neg (Bool.false_ne_true)]
      rw [ih cs (by simp only [List.length_cons] at hf; omega) hno.2]

theorem replAux_cons_ne {pat rep : Str} {f : Nat} {c : Char} {cs : Str}
    (h : isPref pat (c :: cs) = false) :
    replAux pat rep (f + 1) (c :: cs) = c :: replAux pat rep f cs := by
  simp [replAux, h]

theorem replAux_match {c : Char} {q rep b : Str} {f : Nat} :
    replAux (c :: q) rep (f + 1) ((c :: q) ++ b) = rep ++ replAux (c :: q) rep f b := by
  have hpref : isPref (c :: q) ((c :: q) ++ b) = true := isPref_append _ _
  show replAux (c :: q) rep (f + 1) (c :: (q ++ b)) = _
  simp only [replAux]
  rw [if_pos]
  · have hdrop : (c :: (q ++ b)).drop (c :: q).length = b := by
      simp only [List.length_cons, List.drop_succ_cons]
      exact List.drop_left q b
    rw [hdrop]
  · rw [List.cons_append] at hpref
    simp [hpref]

theorem replOnce {c : Char} {q rep a b : Str} (ha : c ∉ a) :
    replaceList (c :: q) rep (a ++ (c :: q) ++ b) =
      a ++ rep ++ replaceList (c :: q) rep b := by
  rw [replaceList, replaceList]
  suffices H : ∀ (a : Str) (f : Nat), c ∉ a → (a ++ (c :: q) ++ b).length ≤ f →
      replAux (c :: q) rep f (a ++ (c :: q) ++ b) =
        a ++ rep ++ replAux (c :: q) rep b.length b from
    H a _ ha (Nat.le_refl _)
  intro a
  induction a with
  | nil =>
    intro f _ hf
    cases f with
    | zero => simp at hf
    | succ f =>
      rw [List.nil_append, replAux_match, List.nil_append]
      have hble : b.length ≤ f := by
        simp only [List.append_assoc, List.length_append, List.length_cons] at hf
        omega
      rw [replAux_fuel hble (Nat.le_refl _)]
  | cons d a' ih =>
    intro f ha hf
    have hdc : d ≠ c := fun h => ha (h ▸ List.mem_cons_self d a')
    cases f with
    | zero => simp at hf
    | succ f =>
      have hnp : isPref (c :: q) (d :: (a' ++ (c :: q) ++ b)) = false :=
        isPref_false_of_head_ne (fun h => hdc h.symm)
      show replAux (c :: q) rep (f + 1) (d :: (a' ++ (c :: q) ++ b)) =
        d :: (a' ++ rep ++ replAux (c :: q) rep b.length b)
      rw [replAux_cons_ne hnp,
        ih f (fun hm => ha (List.mem_cons_of_mem _ hm))
          (by simp only [List.cons_append, List.length_cons] at hf ⊢
              simp only [List.append_assoc, List.length_append, List.length_cons] at hf ⊢
              omega)]

/-! ## Lemmas about `pyStrip`, `firstLine`, `mathSub` -/

theorem dropWhileId {p : Char → Bool} {l : Str}
    (h : ∀ c, l.head? = some c → p c = false) : l.dropWhile p = l := by
  cases l with
  | nil => rfl
  | cons c cs =>
    rw [List.dropWhile_cons, if_neg]
    simp [h c rfl]

theorem pyStripId {l : Str} (h1 : ∀ c, l.head? = some c → pyIsSpace c = false)
    (h2 : ∀ c, l.getLast? = some c → pyIsSpace c = false) : pyStrip l = l := by
  rw [pyStrip, dropWhileId h1, dropWhileId, List.reverse_reverse]
  intro c hc
  rw [List.head?_reverse] at hc
  exact h2 c hc

theorem mem_firstLine {l : Str} {c : Char} (h : c ∈ firstLine l) : c ∈ l := by
  induction l with
  | nil => simp [firstLine] at h
  | cons d cs ih =>
    rw [firstLine, List.takeWhile_cons] at h
    by_cases hd : (d != '\n') = true
    · rw [if_pos hd] at h
      rcases List.mem_cons.mp h with h | h
      · exact h ▸ List.mem_cons_self d cs
      · exact List.mem_cons_of_mem _ (ih h)
    · rw [if_neg hd] at h
      simp at h

theorem mathSubGo_none_id {l : Str} (h : '$' ∉ l) : mathSubGo l none = l := by
  induction l with
  | nil => rfl
  | cons c cs ih =>
    have hc : c ≠ '$' := fun hh => h (hh ▸ List.mem_cons_self c cs)
    simp only [mathSubGo, if_neg hc]
    rw [ih (fun hm => h (List.mem_cons_of_mem _ hm))]

theorem mathSubGo_close {x b acc : Str} (hx : '$' ∉ x) (hn : '\n' ∉ x) :
    mathSubGo (x ++ '$' :: b) (some acc) =
      mathO ++ acc.reverse ++ x ++ mathC ++ mathSubGo b none := by
  induction x generalizing acc with
  | nil => simp [mathSubGo]
  | cons c x ih =>
    have hc : c ≠ '$' := fun hh => hx (hh ▸ List.mem_cons_self c x)
    have hc2 : c ≠ '\n' := fun hh => hn (hh ▸ List.mem_cons_self c x)
    show mathSubGo (c :: (x ++ '$' :: b)) (some acc) =
      mathO ++ acc.reverse ++ (c :: x) ++ mathC ++ mathSubGo b none
    simp only [mathSubGo, if_neg hc, if_neg hc2]
    rw [ih (fun hm => hx (List.mem_cons_of_mem _ hm))
      (fun hm => hn (List.mem_cons_of_mem _ hm))]
    simp

theorem mathSubAt {a x b : Str} (ha : '$' ∉ a) (hx : '$' ∉ x) (hn : '\n' ∉ x) :
    mathSub (a ++ '$' :: x ++ '$' :: b) =
      a ++ mathO ++ x ++ mathC ++ mathSubGo b none := by
  rw [mathSub]
  induction a with
  | nil =>
    show mathSubGo ('$' :: (x ++ '$' :: b)) none = mathO ++ x ++ mathC ++ mathSubGo b none
    have h1 : mathSubGo ('$' :: (x ++ '$' :: b)) none = mathSubGo (x ++ '$' :: b) (some []) := by
      simp [mathSubGo]
    rw [h1, mathSubGo_close hx hn]
    simp
  | cons c a ih =>
    have hc : c ≠ '$' := fun hh => ha (hh ▸ List.mem_cons_self c a)
    show mathSubGo (c :: (a ++ '$' :: x ++ '$' :: b)) none =
      (c :: a) ++ mathO ++ x ++ mathC ++ mathSubGo b none
    simp only [mathSubGo, if_neg hc]
    rw [ih (fun hm => ha (List.mem_cons_of_mem _ hm))]
    simp

/-! ## Lemmas about `escTags` -/

theorem tags_head : ∀ t ∈ specialTags, t = '<' :: t.tail := by decide

theorem tags_tail_lt : ∀ t ∈ specialTags, '<' ∉ t.tail := by decide

theorem tags_pairwise :
    ∀ t1 ∈ specialTags, ∀ t2 ∈ specialTags, t1 ≠ t2 → isPref t1.tail t2.tail = false := by
  decide

theorem tags_esc_lt : ∀ t ∈ specialTags, '<' ∉ escAngles t := by decide

theorem tags_tail_ne_nil : ∀ t ∈ specialTags, t.tail ≠ [] := by decide

theorem tags_tail_head_ne_b : ∀ t ∈ specialTags, t.tail.head? ≠ some 'b' := by decide

theorem tags_tail_gt :
    ∀ t ∈ specialTags, t.tail = t.tail.dropLast ++ ['>'] ∧ '>' ∉ t.tail.dropLast := by
  decide

theorem hasSub_marker {c : Char} {q a m : Str} (ha : c ∉ a) (hm : c ∉ m) :
    hasSub (c :: q) (a ++ c :: m) = true ↔ isPref q m = true := by
  constructor
  · intro h
    obtain ⟨u, v, hdec⟩ := hasSub_iff.mp h
    have hcount : (a ++ c :: m).count c = 1 := by
      simp [List.count_append, List.count_cons, List.count_eq_zero.mpr ha,
        List.count_eq_zero.mpr hm]
    have hu : c ∉ u := by
      rw [hdec] at hcount
      rw [List.count_append, List.count_append, List.count_cons_self] at hcount
      have h0 : u.count c = 0 := by omega
      exact List.count_eq_zero.mp h0
    have hdec2 : u ++ c :: (q ++ v) = a ++ c :: m := by
      rw [hdec]
      simp
    have halign := markerAlign hu ha hdec2
    obtain ⟨rfl, hqv⟩ := halign
    exact isPref_iff.mpr ⟨v, hqv.symm⟩
  · intro h
    obtain ⟨v, rfl⟩ := isPref_iff.mp h
    have : a ++ c :: (q ++ v) = a ++ (c :: q) ++ v := by simp
    rw [this]
    exact hasSub_of_decomp _ _ _

theorem noOcc_of_no_lt {t l : Str} (ht : t ∈ specialTags) (hl : '<' ∉ l) :
    hasSub t l = false := by
  apply hasSub_false_of_not_mem _ hl
  rw [tags_head t ht]
  exact List.mem_cons_self _ _

theorem escStep_other {t tag a b : Str} (ht : t ∈ specialTags) (htag : tag ∈ specialTags)
    (hne : t ≠ tag) (ha : '<' ∉ a) (hb : '<' ∉ b) : hasSub t (a ++ tag ++ b) = false := by
  by_contra hcon
  have h : hasSub t (a ++ tag ++ b) = true := by
    cases hh : hasSub t (a ++ tag ++ b)
    · exact absurd hh hcon
    · rfl
  have hl : a ++ tag ++ b = a ++ '<' :: (tag.tail ++ b) := by
    rw [tags_head tag htag]
    simp
  rw [hl, tags_head t ht] at h
  have hm : '<' ∉ tag.tail ++ b := by
    intro hmem
    rcases List.mem_append.mp hmem with hmem | hmem
    · exact tags_tail_lt tag htag hmem
    · exact hb hmem
  have hpref := (hasSub_marker ha hm).mp h
  by_cases hlen : t.tail.length ≤ tag.tail.length
  · have := isPref_of_isPref_append hpref hlen
    rw [tags_pairwise t ht tag htag hne] at this
    exact Bool.false_ne_true this
  · have htag_pref : isPref tag.tail (tag.tail ++ b) = true := isPref_append _ _
    have := commonPref htag_pref hpref (by omega)
    rw [tags_pairwise tag htag t ht (fun hh => hne hh.symm)] at this
    exact Bool.false_ne_true this

theorem foldRepl_id {ts : List Str} {l : Str} (h : ∀ t ∈ ts, hasSub t l = false) :
    ts.foldl (fun acc tag => replaceList tag (escAngles tag) acc) l = l := by
  induction ts with
  | nil => rfl
  | cons t ts ih =>
    rw [List.foldl_cons, replNo (h t (List.mem_cons_self t ts))]
    exact ih (fun t' ht' => h t' (List.mem_cons_of_mem _ ht'))

theorem escTags_id {l : Str} (hl : '<' ∉ l) : escTags l = l :=
  foldRepl_id (fun _ ht => noOcc_of_no_lt ht hl)

theorem escTags_apply {tag a b : Str} (htag : tag ∈ specialTags) (ha : '<' ∉ a)
    (hb : '<' ∉ b) : escTags (a ++ tag ++ b) = a ++ escAngles tag ++ b := by
  rw [escTags]
  suffices H : ∀ ts : List Str, (∀ t ∈ ts, t ∈ specialTags) → tag ∈ ts →
      ts.foldl (fun acc tg => replaceList tg (escAngles tg) acc) (a ++ tag ++ b) =
        a ++ escAngles tag ++ b from
    H specialTags (fun _ ht => ht) htag
  intro ts
  induction ts with
  | nil => intro _ habs; simp at habs
  | cons t ts ih =>
    intro hsub hmem
    rw [List.foldl_cons]
    by_cases heq : t = tag
    · subst heq
      obtain ⟨q, hq⟩ : ∃ q, t = '<' :: q := ⟨t.tail, tags_head t htag⟩
      subst hq
      have hstep : replaceList ('<' :: q) (escAngles ('<' :: q)) (a ++ ('<' :: q) ++ b) =
          a ++ escAngles ('<' :: q) ++ b := by
        rw [replOnce ha, replNo (noOcc_of_no_lt htag hb)]
      rw [hstep]
      apply foldRepl_id
      intro t' ht'
      apply noOcc_of_no_lt (hsub t' (List.mem_cons_of_mem _ ht'))
      intro hmem'
      rcases List.mem_append.mp hmem' with hmem' | hmem'
      · rcases List.mem_append.mp hmem' with hmem' | hmem'
        · exact ha hmem'
        · exact tags_esc_lt ('<' :: q) htag hmem'
      · exact hb hmem'
    · rw [replNo (escStep_other (hsub t (List.mem_cons_self t ts)) htag heq ha hb)]
      exact ih (fun t' ht' => hsub t' (List.mem_cons_of_mem _ ht'))
        (by rcases List.mem_cons.mp hmem with h | h
            · exact absurd h.symm heq
            · exact h)

theorem escTags_id_marker {a m : Str} (ha : '<' ∉ a) (hm : '<' ∉ m)
    (h : ∀ t ∈ specialTags, isPref t.tail m = false) :
    escTags (a ++ '<' :: m) = a ++ '<' :: m := by
  apply foldRepl_id
  intro t ht
  cases hh : hasSub t (a ++ '<' :: m)
  · rfl
  · rw [tags_head t ht] at hh
    have := (hasSub_marker ha hm).mp hh
    rw [h t ht] at this
    exact absurd this Bool.false_ne_true

theorem tags_tail_no_b {rest : Str} :
    ∀ t ∈ specialTags, isPref t.tail ('b' :: rest) = false := by
  intro t ht
  have h1 := tags_tail_head_ne_b t ht
  have h2 := tags_tail_ne_nil t ht
  cases hc : t.tail with
  | nil => exact absurd hc h2
  | cons d q =>
    rw [hc] at h1
    simp only [List.head?_cons, ne_eq, Option.some.injEq] at h1
    exact isPref_false_of_head_ne h1

theorem otherTag_noOcc {w a b : Str} (hw1 : '<' ∉ w) (hw2 : '>' ∉ w) (ha : '<' ∉ a)
    (hb : '<' ∉ b) (hnot : ('<' :: w ++ ['>'] : Str) ∉ specialTags) :
    ∀ t ∈ specialTags, hasSub t (a ++ '<' :: (w ++ '>' :: b)) = false := by
  intro t ht
  cases hh : hasSub t (a ++ '<' :: (w ++ '>' :: b))
  · rfl
  · exfalso
    rw [tags_head t ht] at hh
    have hm : '<' ∉ w ++ '>' :: b := by
      intro hmem
      rcases List.mem_append.mp hmem with hmem | hmem
      · exact hw1 hmem
      · rcases List.mem_cons.mp hmem with hmem | hmem
        · exact absurd hmem (by decide)
        · exact hb hmem
    have hpref := (hasSub_marker ha hm).mp hh
    obtain ⟨hdec, hgt⟩ := tags_tail_gt t ht
    rw [hdec] at hpref
    obtain ⟨s, hs⟩ := isPref_iff.mp hpref
    rw [List.append_assoc] at hs
    have halign := markerAlign hw2 hgt hs
    obtain ⟨hweq, _⟩ := halign
    apply hnot
    have : ('<' :: w ++ ['>'] : Str) = t := by
      rw [tags_head t ht, hdec, hweq]
      simp
    rw [this]
    exact ht

/-! ## Lemmas about the fence matcher -/

theorem takeWhile_append_all {p : Char → Bool} {u r : Str} (h : ∀ c ∈ u, p c = true) :
    (u ++ r).takeWhile p = u ++ r.takeWhile p := by
  induction u with
  | nil => rfl
  | cons c u ih =>
    rw [List.cons_append, List.takeWhile_cons, if_pos (h c (List.mem_cons_self c u)),
      ih (fun d hd => h d (List.mem_cons_of_mem _ hd))]
    rfl

theorem wsCount_allWs {ws rest : Str} (hws : ∀ c ∈ ws, pyIsSpace c = true)
    (hrest : ∀ c, rest.head? = some c → pyIsSpace c = false) :
    wsCount (ws ++ rest) = ws.length := by
  rw [wsCount, takeWhile_append_all hws]
  have hr : rest.takeWhile pyIsSpace = [] := by
    cases rest with
    | nil => rfl
    | cons c cs =>
      rw [List.takeWhile_cons, if_neg]
      simp [hrest c rfl]
  rw [hr]
  simp

theorem wsCount_lt_of_last {l1 W : Str} (h1 : l1 ≠ [])
    (h2 : ∀ c, l1.getLast? = some c → pyIsSpace c = false) :
    wsCount (l1 ++ W) < l1.length := by
  induction l1 with
  | nil => exact absurd rfl h1
  | cons c rest ih =>
    cases rest with
    | nil =>
      have hc : pyIsSpace c = false := h2 c rfl
      rw [List.cons_append, List.nil_append, wsCount, List.takeWhile_cons, if_neg (by simp [hc])]
      simp
    | cons d rest' =>
      by_cases hc : pyIsSpace c = true
      · rw [List.cons_append, wsCount, List.takeWhile_cons, if_pos hc]
        have h3 := ih (by simp) (fun e he => h2 e (by rw [List.getLast?_cons_cons]; exact he))
        rw [wsCount] at h3
        simp only [List.cons_append] at h3 ⊢
        simp only [List.length_cons] at h3 ⊢
        omega
      · rw [List.cons_append, wsCount, List.takeWhile_cons, if_neg hc]
        simp

theorem closAt_exact {ws2 tail : Str} :
    closAt (ws2 ++ (ccc ++ tail)) ws2.length = some tail := by
  rw [closAt, List.drop_left, if_pos]
  · have : ccc ++ tail = '`' :: '`' :: '`' :: tail := rfl
    rw [this]
    rfl
  · exact isPref_append ccc tail

theorem closTry_exact {ws2 tail : Str} (hws2 : ∀ c ∈ ws2, pyIsSpace c = true) :
    closTry (ws2 ++ (ccc ++ tail)) = some tail := by
  rw [closTry, wsCount_allWs hws2 (by intro c hc; cases hc; decide)]
  cases hn : ws2.length with
  | zero =>
    rw [closTryAux]
    rw [← hn]
    exact closAt_exact
  | succ k =>
    rw [closTryAux, ← hn, closAt_exact]

theorem closAt_none_of_lt {l1 W : Str} {k : Nat} (hk : k < l1.length) (hnb : '`' ∉ l1) :
    closAt (l1 ++ W) k = none := by
  rw [closAt, if_neg]
  have hdrop : (l1 ++ W).drop k = l1.drop k ++ W := List.drop_append_of_le_length (by omega)
  rw [hdrop]
  cases hd : l1.drop k with
  | nil =>
    have : l1.length - k = 0 := by rw [← List.length_drop, hd]; rfl
    omega
  | cons d rest =>
    have hdin : d ∈ l1 := List.drop_subset k l1 (hd ▸ List.mem_cons_self d rest)
    have hdn : d ≠ '`' := fun hh => hnb (hh ▸ hdin)
    rw [List.cons_append]
    have : isPref ccc (d :: (rest ++ W)) = false := by
      have hpf : isPref ('`' :: '`' :: '`' :: []) (d :: (rest ++ W)) = false :=
        isPref_false_of_head_ne (fun hh => hdn hh.symm)
      exact hpf
    simp [this]

theorem closTryAux_none {l : Str} {n : Nat} (h : ∀ k, k ≤ n → closAt l k = none) :
    closTryAux l n = none := by
  induction n with
  | zero => exact h 0 (Nat.le_refl 0)
  | succ k ih =>
    rw [closTryAux, h (k + 1) (Nat.le_refl _)]
    exact ih (fun j hj => h j (Nat.le_succ_of_le hj))

theorem closTry_none_mid {l1 W : Str} (h1 : l1 ≠ [])
    (hlast : ∀ c, l1.getLast? = some c → pyIsSpace c = false) (hnb : '`' ∉ l1) :
    closTry (l1 ++ W) = none := by
  rw [closTry]
  apply closTryAux_none
  intro k hk
  have : k < l1.length := Nat.lt_of_le_of_lt hk (wsCount_lt_of_last h1 hlast)
  exact closAt_none_of_lt this hnb

theorem lazyLoop_inner {inner ws2 tail : Str} {acc : Str}
    (hnb : '`' ∉ inner) (hlast : ∀ c, inner.getLast? = some c → pyIsSpace c = false)
    (hws2 : ∀ c ∈ ws2, pyIsSpace c = true) :
    lazyLoop (inner ++ (ws2 ++ (ccc ++ tail))) acc = some (acc.reverse ++ inner, tail) := by
  induction inner generalizing acc with
  | nil =>
    have hlist : ws2 ++ (ccc ++ tail) = ('`' :: []) ++ (ws2 ++ (ccc ++ tail)) ∨ True := Or.inr trivial
    rw [List.nil_append, List.append_nil]
    have hct := @closTry_exact ws2 tail hws2
    cases hsh : ws2 ++ (ccc ++ tail) with
    | nil =>
      exfalso
      have : (ws2 ++ (ccc ++ tail)).length = 0 := by rw [hsh]; rfl
      simp [ccc, strL] at this
    | cons c cs =>
      rw [lazyLoop, ← hsh, hct]
  | cons c inner' ih =>
    have hcl : closTry ((c :: inner') ++ (ws2 ++ (ccc ++ tail))) = none :=
      closTry_none_mid (by simp) hlast hnb
    show lazyLoop (c :: (inner' ++ (ws2 ++ (ccc ++ tail)))) acc = _
    rw [lazyLoop]
    rw [List.cons_append] at hcl
    rw [hcl]
    cases hinn : inner' with
    | nil =>
      subst hinn
      rw [List.nil_append]
      have hct := @closTry_exact ws2 tail hws2
      cases hsh : ws2 ++ (ccc ++ tail) with
      | nil =>
        exfalso
        have : (ws2 ++ (ccc ++ tail)).length = 0 := by rw [hsh]; rfl
        simp [ccc, strL] at this
      | cons d ds =>
        rw [lazyLoop, ← hsh, hct]
        simp
    | cons d rest =>
      subst hinn
      rw [ih (fun hm => hnb (List.mem_cons_of_mem _ hm))
        (fun e he => hlast e (by rw [List.getLast?_cons_cons]; exact he))]
      simp

theorem leadTry_inner {ws1 inner ws2 tail : Str}
    (hws1 : ∀ c ∈ ws1, pyIsSpace c = true) (hne : inner ≠ [])
    (hhead : ∀ c, inner.head? = some c → pyIsSpace c = false)
    (hlast : ∀ c, inner.getLast? = some c → pyIsSpace c = false)
    (hnb : '`' ∉ inner) (hws2 : ∀ c ∈ ws2, pyIsSpace c = true) :
    leadTry (ws1 ++ (inner ++ (ws2 ++ (ccc ++ tail)))) = some (inner, tail) := by
  have hwc : wsCount (ws1 ++ (inner ++ (ws2 ++ (ccc ++ tail)))) = ws1.length := by
    apply wsCount_allWs hws1
    intro c hc
    cases inner with
    | nil => exact absurd rfl hne
    | cons d rest =>
      simp only [List.cons_append, List.head?_cons, Option.some.injEq] at hc
      subst hc
      exact hhead _ rfl
  rw [leadTry, hwc]
  have hl := @lazyLoop_inner inner ws2 tail [] hnb hlast hws2
  cases hn : ws1.length with
  | zero =>
    have hws1nil : ws1 = [] := List.eq_nil_of_length_eq_zero hn
    subst hws1nil
    rw [leadTryAux, List.nil_append, hl]
    rfl
  | succ k =>
    rw [leadTryAux, ← hn, List.drop_left, hl]
    simp

theorem fenceMatchAt_md {ws1 inner ws2 tail : Str}
    (hws1 : ∀ c ∈ ws1, pyIsSpace c = true) (hne : inner ≠ [])
    (hhead : ∀ c, inner.head? = some c → pyIsSpace c = false)
    (hlast : ∀ c, inner.getLast? = some c → pyIsSpace c = false)
    (hnb : '`' ∉ inner) (hws2 : ∀ c ∈ ws2, pyIsSpace c = true) :
    fenceMatchAt (ccc ++ (mdWord ++ (ws1 ++ (inner ++ (ws2 ++ (ccc ++ tail)))))) =
      some (mdWord, inner, tail) := by
  have hpref1 : isPref ccc (ccc ++ (mdWord ++ (ws1 ++ (inner ++ (ws2 ++ (ccc ++ tail)))))) = true :=
    isPref_append _ _
  have hdrop3 : (ccc ++ (mdWord ++ (ws1 ++ (inner ++ (ws2 ++ (ccc ++ tail)))))).drop 3 =
      mdWord ++ (ws1 ++ (inner ++ (ws2 ++ (ccc ++ tail)))) := List.drop_left ccc _
  have hpref2 : isPref mdWord (mdWord ++ (ws1 ++ (inner ++ (ws2 ++ (ccc ++ tail))))) = true :=
    isPref_append _ _
  have hdrop8 : (mdWord ++ (ws1 ++ (inner ++ (ws2 ++ (ccc ++ tail))))).drop 8 =
      ws1 ++ (inner ++ (ws2 ++ (ccc ++ tail))) := List.drop_left mdWord _
  have hlead := @leadTry_inner ws1 inner ws2 tail hws1 hne hhead hlast hnb hws2
  simp only [fenceMatchAt, hpref1, if_true, hdrop3, hpref2, hdrop8, hlead, Option.map_some']

theorem fenceMatchAt_nomd {ws1 inner ws2 tail : Str}
    (hws1 : ∀ c ∈ ws1, pyIsSpace c = true) (hw1ne : ws1 ≠ []) (hne : inner ≠ [])
    (hhead : ∀ c, inner.head? = some c → pyIsSpace c = false)
    (hlast : ∀ c, inner.getLast? = some c → pyIsSpace c = false)
    (hnb : '`' ∉ inner) (hws2 : ∀ c ∈ ws2, pyIsSpace c = true) :
    fenceMatchAt (ccc ++ (ws1 ++ (inner ++ (ws2 ++ (ccc ++ tail))))) =
      some ([], inner, tail) := by
  have hpref1 : isPref ccc (ccc ++ (ws1 ++ (inner ++ (ws2 ++ (ccc ++ tail))))) = true :=
    isPref_append _ _
  have hdrop3 : (ccc ++ (ws1 ++ (inner ++ (ws2 ++ (ccc ++ tail))))).drop 3 =
      ws1 ++ (inner ++ (ws2 ++ (ccc ++ tail))) := List.drop_left ccc _
  have hpref2 : isPref mdWord (ws1 ++ (inner ++ (ws2 ++ (ccc ++ tail)))) = false := by
    cases ws1 with
    | nil => exact absurd rfl hw1ne
    | cons c w =>
      have hc : pyIsSpace c = true := hws1 c (List.mem_cons_self c w)
      have hcm : c ≠ 'm' := by
        intro hh
        rw [hh] at hc
        exact absurd hc (by decide)
      rw [List.cons_append]
      exact isPref_false_of_head_ne (fun hh => hcm hh.symm)
  have hlead := @leadTry_inner ws1 inner ws2 tail hws1 hne hhead hlast hnb hws2
  simp only [fenceMatchAt, hpref1, if_true, hdrop3, hpref2, Bool.false_eq_true, if_false,
    hlead, Option.map_some']

theorem fenceScan_cons {t g1 g2 rem : Str} (hne : t ≠ [])
    (h : fenceMatchAt t = some (g1, g2, rem)) :
    ∃ rest, fenceScan t = (g1, g2) :: rest := by
  rw [fenceScan]
  cases t with
  | nil => exact absurd rfl hne
  | cons c cs =>
    refine ⟨fenceScanAux (c :: cs).length rem, ?_⟩
    simp only [fenceScanAux, h]

theorem fenceStep_extract {t inner : Str} (hcond : hasSub ccc (firstLine t) = true)
    (htne : t ≠ []) (hinner : inner ≠ [])
    (hscan : ∃ g1 rest, fenceScan t = (g1, inner) :: rest) :
    fenceStep false t = inner := by
  obtain ⟨g1, rest, hs⟩ := hscan
  rw [fenceStep, if_pos]
  · rw [hs]
    simp only [List.map_cons, List.filter_cons]
    rw [if_pos (by cases inner with
      | nil => exact absurd rfl hinner
      | cons a b => rfl)]
  · simp only [Bool.false_or, Bool.and_eq_true]
    constructor
    · cases t with
      | nil => exact absurd rfl htne
      | cons a b => rfl
    · exact hcond

theorem firstLine_ccc {R : Str} : hasSub ccc (firstLine (ccc ++ R)) = true := by
  rw [firstLine, takeWhile_append_all (by decide)]
  exact hasSub_of_decomp ccc [] _

theorem closAt_none_all {l : Str} {k : Nat} (h : '`' ∉ l) : closAt l k = none := by
  have hfalse : isPref ccc (l.drop k) = false := by
    cases hd : l.drop k with
    | nil => decide
    | cons d rest =>
      have hdin : d ∈ l := List.drop_subset k l (hd ▸ List.mem_cons_self d rest)
      exact isPref_false_of_head_ne (fun hh => h (by rw [hh]; exact hdin))
  rw [closAt, hfalse]
  simp

theorem closTry_none_all {l : Str} (h : '`' ∉ l) : closTry l = none := by
  rw [closTry]
  exact closTryAux_none (fun k _ => closAt_none_all h)

theorem lazyLoop_none_all {l acc : Str} (h : '`' ∉ l) : lazyLoop l acc = none := by
  induction l generalizing acc with
  | nil =>
    rw [lazyLoop, closTry_none_all (by simp)]
  | cons c cs ih =>
    rw [lazyLoop, closTry_none_all h]
    exact ih (fun hm => h (List.mem_cons_of_mem _ hm))

theorem leadTry_none_all {l : Str} (h : '`' ∉ l) : leadTry l = none := by
  rw [leadTry]
  generalize wsCount l = n
  induction n with
  | zero => exact lazyLoop_none_all h
  | succ k ih =>
    rw [leadTryAux, lazyLoop_none_all (fun hm => h (List.drop_subset _ l hm))]
    exact ih

theorem fenceMatchAt_none_open {a : Str} (h : '`' ∉ a) :
    fenceMatchAt ('`' :: '`' :: '`' :: a) = none := by
  show fenceMatchAt (ccc ++ a) = none
  have hdrop3 : (ccc ++ a).drop 3 = a := List.drop_left ccc a
  have hl1 : leadTry (a.drop 8) = none :=
    leadTry_none_all (fun hm => h (List.drop_subset _ a hm))
  have hl2 : leadTry a = none := leadTry_none_all h
  simp only [fenceMatchAt, isPref_append, if_true, hdrop3, hl1, hl2, Option.map_none']
  cases hmd : isPref mdWord a <;> simp

theorem fenceMatchAt_none_of_no_tick {l : Str} (h : '`' ∉ l) : fenceMatchAt l = none := by
  have hfalse : isPref ccc l = false := by
    cases l with
    | nil => decide
    | cons c cs =>
      exact isPref_false_of_head_ne
        (fun hh => h (by rw [hh]; exact List.mem_cons_self c cs))
  rw [fenceMatchAt, hfalse]
  simp

theorem fenceScanAux_no_tick {f : Nat} {l : Str} (h : '`' ∉ l) : fenceScanAux f l = [] := by
  induction f generalizing l with
  | zero => rfl
  | succ f ih =>
    cases l with
    | nil => rfl
    | cons c cs =>
      rw [fenceScanAux]
      rw [fenceMatchAt_none_of_no_tick h]
      exact ih (fun hm => h (List.mem_cons_of_mem _ hm))

theorem fenceMatchAt_none_two {a : Str} (h : '`' ∉ a) :
    fenceMatchAt ('`' :: '`' :: a) = none := by
  have hfalse : isPref ccc ('`' :: '`' :: a) = false := by
    cases a with
    | nil => decide
    | cons d ds =>
      have hdne : ('`' : Char) ≠ d :=
        fun hh => h (by rw [hh]; exact List.mem_cons_self d ds)
      simp [isPref, ccc, strL, hdne]
  rw [fenceMatchAt, hfalse]
  simp

theorem fenceMatchAt_none_one {a : Str} (h : '`' ∉ a) :
    fenceMatchAt ('`' :: a) = none := by
  have hfalse : isPref ccc ('`' :: a) = false := by
    cases a with
    | nil => decide
    | cons d ds =>
      have hdne : ('`' : Char) ≠ d :=
        fun hh => h (by rw [hh]; exact List.mem_cons_self d ds)
      simp [isPref, ccc, strL, hdne]
  rw [fenceMatchAt, hfalse]
  simp

theorem fenceScanAux_two_ticks {f : Nat} {a : Str} (h : '`' ∉ a) :
    fenceScanAux f ('`' :: '`' :: a) = [] := by
  cases f with
  | zero => rfl
  | succ f =>
    rw [fenceScanAux, fenceMatchAt_none_two h]
    cases f with
    | zero => rfl
    | succ f =>
      rw [fenceScanAux, fenceMatchAt_none_one h]
      exact fenceScanAux_no_tick h

theorem fenceScan_no_close {a : Str} (h : '`' ∉ a) : fenceScan (ccc ++ a) = [] := by
  rw [fenceScan]
  show fenceScanAux ((ccc ++ a).length + 1) ('`' :: '`' :: '`' :: a) = []
  rw [fenceScanAux, fenceMatchAt_none_open h]
  exact fenceScanAux_two_ticks h

theorem fenceStep_no_close {a : Str} (h : '`' ∉ a) :
    fenceStep false (ccc ++ a) = ccc ++ a := by
  have hcond : (false || (!(ccc ++ a).isEmpty && hasSub ccc (firstLine (ccc ++ a)))) = true := by
    simp only [Bool.false_or, Bool.and_eq_true]
    exact ⟨rfl, firstLine_ccc⟩
  rw [fenceStep, if_pos hcond, fenceScan_no_close h]
  rfl

/-! ## Adjacent-dollar lemmas and the benign textual pipeline -/

theorem benign_split {x : Str} (h : ∀ c ∈ x, benignChar c = true) :
    '$' ∉ x ∧ '\n' ∉ x ∧ '`' ∉ x ∧ '\\' ∉ x ∧ '<' ∉ x := by
  refine ⟨?_, ?_, ?_, ?_, ?_⟩ <;>
    · intro hm
      have hb := h _ hm
      simp [benignChar] at hb

theorem nmA {c : Char} {a b : Str} (ha : c ∉ a) (hb : c ∉ b) : c ∉ a ++ b := by
  intro hm
  rcases List.mem_append.mp hm with h | h
  · exact ha h
  · exact hb h

theorem nmC {c d : Char} {l : Str} (hne : c ≠ d) (hl : c ∉ l) : c ∉ d :: l := by
  intro hm
  rcases List.mem_cons.mp hm with h | h
  · exact hne h
  · exact hl h

theorem adjFree_no_dd_aux (u v : Str) : adjFree (u ++ '$' :: '$' :: v) = false := by
  induction u with
  | nil => simp [adjFree]
  | cons c u' ih =>
    cases hw : u' ++ '$' :: '$' :: v with
    | nil =>
      exfalso
      have : (u' ++ '$' :: '$' :: v).length = 0 := by rw [hw]; rfl
      simp at this
    | cons d w' =>
      rw [List.cons_append, hw, adjFree, ← hw, ih]
      simp

theorem adjFree_no_dd {l : Str} (h : adjFree l = true) : hasSub ddS l = false := by
  cases hs : hasSub ddS l with
  | false => rfl
  | true =>
    exfalso
    obtain ⟨u, v, hdec⟩ := hasSub_iff.mp hs
    have hddS : ddS = ['$', '$'] := by decide
    have : l = u ++ '$' :: '$' :: v := by rw [hdec, hddS]; simp
    rw [this, adjFree_no_dd_aux] at h
    exact Bool.false_ne_true h

theorem adjFree_append_nodollar {x r : Str} (hx : '$' ∉ x) (hr : adjFree r = true) :
    adjFree (x ++ r) = true := by
  induction x with
  | nil => exact hr
  | cons c x' ih =>
    have hc : c ≠ '$' := fun hh => hx (hh ▸ List.mem_cons_self c x')
    have hrec := ih (fun hm => hx (List.mem_cons_of_mem _ hm))
    cases hw : x' ++ r with
    | nil => rw [List.cons_append, hw]; rfl
    | cons d w' =>
      rw [List.cons_append, hw, adjFree, ← hw, hrec]
      simp [hc]

theorem adjFree_dollar_cons {x r : Str} (hx : '$' ∉ x) (hne : x ≠ [])
    (h : adjFree (x ++ r) = true) : adjFree ('$' :: (x ++ r)) = true := by
  cases x with
  | nil => exact absurd rfl hne
  | cons c x' =>
    have hc : c ≠ '$' := fun hh => hx (hh ▸ List.mem_cons_self c x')
    rw [List.cons_append, adjFree]
    rw [List.cons_append] at h
    rw [h]
    simp [hc]

theorem fenceStep_id_no_tick {t : Str} (h : '`' ∉ t) : fenceStep false t = t := by
  rw [fenceStep]
  have hc : hasSub ccc (firstLine t) = false :=
    hasSub_false_of_not_mem (show '`' ∈ ccc by decide) (fun hm => h (mem_firstLine hm))
  rw [hc]
  simp

theorem ptc_pre_dd {t : Str} (hb : '`' ∉ t) (hlt : '<' ∉ t) (hbs : '\\' ∉ t)
    (hnl : '\n' ∉ t)
    (hh : ∀ c, t.head? = some c → pyIsSpace c = false)
    (hl : ∀ c, t.getLast? = some c → pyIsSpace c = false) :
    processTextualContent false t = mathSub (replaceList ddS dS t) := by
  rw [processTextualContent, fenceStep_id_no_tick hb, pyStripId hh hl,
    replNo (hasSub_false_of_not_mem (show '\n' ∈ nlS by decide) hnl),
    replNo (hasSub_false_of_not_mem (show '\\' ∈ bsnS by decide) hbs),
    escTags_id hlt]

theorem ptc_benign {t : Str} (hb : '`' ∉ t) (hlt : '<' ∉ t) (hbs : '\\' ∉ t)
    (hnl : '\n' ∉ t) (hdd : hasSub ddS t = false)
    (hh : ∀ c, t.head? = some c → pyIsSpace c = false)
    (hl : ∀ c, t.getLast? = some c → pyIsSpace c = false) :
    processTextualContent false t = mathSub t := by
  rw [ptc_pre_dd hb hlt hbs hnl hh hl, replNo hdd]

/-! ## Supporting lemmas for the math-span claim -/

theorem wrap_ends_strip {x : Str} :
    (∀ c, ('$' :: (x ++ ['$']) : Str).head? = some c → pyIsSpace c = false) ∧
    (∀ c, ('$' :: (x ++ ['$']) : Str).getLast? = some c → pyIsSpace c = false) := by
  constructor
  · intro c hc
    simp only [List.head?_cons, Option.some.injEq] at hc
    subst hc
    decide
  · intro c hc
    have : ('$' :: (x ++ ['$']) : Str) = ('$' :: x) ++ ['$'] := by simp
    rw [this, List.getLast?_concat] at hc
    simp only [Option.some.injEq] at hc
    subst hc
    decide

theorem mathSub_single {x : Str} (hd : '$' ∉ x) (hnl : '\n' ∉ x) :
    mathSub ('$' :: (x ++ ['$'])) = mathO ++ x ++ mathC := by
  have h := mathSubAt (a := []) (b := []) (by simp) hd hnl
  simp only [List.nil_append] at h
  rw [show ('$' :: (x ++ ['$']) : Str) = '$' :: x ++ '$' :: [] by simp] at *
  rw [h]
  simp [mathSub, mathSubGo]

theorem no_dollar_out {x : Str} (hd : '$' ∉ x) : '$' ∉ mathO ++ x ++ mathC := by
  intro hm
  simp only [List.append_assoc, List.mem_append] at hm
  rcases hm with hm | hm | hm
  · exact absurd hm (by decide)
  · exact hd hm
  · exact absurd hm (by decide)

theorem claim_c4_part1 (x : Str) (hbx : ∀ c ∈ x, benignChar c = true) (hne : x ≠ []) :
    processTextualContent false ('$' :: (x ++ ['$'])) = mathO ++ x ++ mathC := by
  obtain ⟨hd, hnl, hbt, hbs, hlt⟩ := benign_split hbx
  have hmem : ∀ c : Char, c ∈ ('$' :: (x ++ ['$']) : Str) → c = '$' ∨ c ∈ x := by
    intro c hm
    rcases List.mem_cons.mp hm with hm | hm
    · exact Or.inl hm
    · rcases List.mem_append.mp hm with hm | hm
      · exact Or.inr hm
      · rcases List.mem_cons.mp hm with hm | hm
        · exact Or.inl hm
        · simp at hm
  obtain ⟨hh, hl⟩ := wrap_ends_strip (x := x)
  have hddf : hasSub ddS ('$' :: (x ++ ['$'])) = false := by
    apply adjFree_no_dd
    exact adjFree_dollar_cons hd hne (adjFree_append_nodollar hd rfl)
  rw [ptc_benign
    (fun hm => by rcases hmem _ hm with h | h
                  · exact absurd h (by decide)
                  · exact hbt h)
    (fun hm => by rcases hmem _ hm with h | h
                  · exact absurd h (by decide)
                  · exact hlt h)
    (fun hm => by rcases hmem _ hm with h | h
                  · exact absurd h (by decide)
                  · exact hbs h)
    (fun hm => by rcases hmem _ hm with h | h
                  · exact absurd h (by decide)
                  · exact hnl h)
    hddf hh hl]
  exact mathSub_single hd hnl

theorem dd_collapse {x : Str} (hd : '$' ∉ x) :
    replaceList ddS dS ('$' :: '$' :: (x ++ ['$', '$'])) = '$' :: (x ++ ['$']) := by
  have hddS : ddS = '$' :: ['$'] := by decide
  have h1 : ('$' :: '$' :: (x ++ ['$', '$']) : Str) =
      [] ++ ('$' :: ['$']) ++ (x ++ ['$', '$']) := by simp
  rw [hddS, h1, replOnce (by simp)]
  have h2 : (x ++ ['$', '$'] : Str) = x ++ ('$' :: ['$']) ++ [] := by simp
  rw [h2, replOnce (fun hm => hd hm)]
  have h3 : replaceList ('$' :: ['$']) dS [] = [] := rfl
  rw [h3]
  have hdS : dS = ['$'] := by decide
  rw [hdS]
  simp

theorem claim_c4_part1dd (x : Str) (hbx : ∀ c ∈ x, benignChar c = true) :
    processTextualContent false ('$' :: '$' :: (x ++ ['$', '$'])) = mathO ++ x ++ mathC := by
  obtain ⟨hd, hnl, hbt, hbs, hlt⟩ := benign_split hbx
  have hmem : ∀ c : Char, c ∈ ('$' :: '$' :: (x ++ ['$', '$']) : Str) → c = '$' ∨ c ∈ x := by
    intro c hm
    simp only [List.mem_cons, List.mem_append] at hm
    rcases hm with hm | hm | hm | hm | hm
    · exact Or.inl hm
    · exact Or.inl hm
    · exact Or.inr hm
    · exact Or.inl hm
    · simp at hm
      exact Or.inl hm
  have hh : ∀ c, ('$' :: '$' :: (x ++ ['$', '$']) : Str).head? = some c → pyIsSpace c = false := by
    intro c hc
    simp only [List.head?_cons, Option.some.injEq] at hc
    subst hc
    decide
  have hl : ∀ c, ('$' :: '$' :: (x ++ ['$', '$']) : Str).getLast? = some c → pyIsSpace c = false := by
    intro c hc
    have hsh : ('$' :: '$' :: (x ++ ['$', '$']) : Str) = ('$' :: '$' :: (x ++ ['$'])) ++ ['$'] := by
      simp
    rw [hsh, List.getLast?_concat] at hc
    simp only [Option.some.injEq] at hc
    subst hc
    decide
  rw [ptc_pre_dd
    (fun hm => by rcases hmem _ hm with h | h
                  · exact absurd h (by decide)
                  · exact hbt h)
    (fun hm => by rcases hmem _ hm with h | h
                  · exact absurd h (by decide)
                  · exact hlt h)
    (fun hm => by rcases hmem _ hm with h | h
                  · exact absurd h (by decide)
                  · exact hbs h)
    (fun hm => by rcases hmem _ hm with h | h
                  · exact absurd h (by decide)
                  · exact hnl h)
    hh hl, dd_collapse hd]
  exact mathSub_single hd hnl

theorem append_cons_ne_nil {x1 : Str} {c : Char} {r : Str} : x1 ++ c :: r ≠ [] := by
  intro h0
  have := congrArg List.length h0
  simp at this

theorem claim_c4_multiline (x1 x2 : Str) (hb1 : ∀ c ∈ x1, benignChar c = true)
    (hb2 : ∀ c ∈ x2, benignChar c = true) :
    processTextualContent false ('$' :: (x1 ++ '\n' :: (x2 ++ ['$']))) =
      mathO ++ (x1 ++ ('<' :: 'b' :: 'r' :: '>' :: x2)) ++ mathC := by
  obtain ⟨hd1, hnl1, hbt1, hbs1, hlt1⟩ := benign_split hb1
  obtain ⟨hd2, hnl2, hbt2, hbs2, hlt2⟩ := benign_split hb2
  have hbrS : brS = '<' :: 'b' :: 'r' :: '>' :: [] := by decide
  have hnlS : nlS = '\n' :: [] := by decide
  set t : Str := '$' :: (x1 ++ '\n' :: (x2 ++ ['$'])) with ht
  show mathSub (replaceList ddS dS (escTags (replaceList bsnS brS
      (replaceList nlS brS (pyStrip (fenceStep false t)))))) = _
  have h0 : fenceStep false t = t :=
    fenceStep_id_no_tick
      (nmC (by decide) (nmA hbt1 (nmC (by decide) (nmA hbt2 (by decide)))))
  have h1 : pyStrip t = t := by
    apply pyStripId
    · intro c hc
      rw [ht] at hc
      simp only [List.head?_cons, Option.some.injEq] at hc
      subst hc
      decide
    · intro c hc
      have hsh : t = ('$' :: (x1 ++ '\n' :: x2)) ++ ['$'] := by rw [ht]; simp
      rw [hsh, List.getLast?_concat] at hc
      simp only [Option.some.injEq] at hc
      subst hc
      decide
  have h2 : replaceList nlS brS t = ('$' :: x1) ++ brS ++ (x2 ++ ['$']) := by
    have hsh : t = ('$' :: x1) ++ ('\n' :: []) ++ (x2 ++ ['$']) := by rw [ht]; simp
    rw [hsh, hnlS]
    rw [replOnce (nmC (by decide) hnl1)]
    rw [replNo (hasSub_false_of_not_mem (List.mem_cons_self '\n' [])
      (nmA hnl2 (nmC (by decide) (by simp))))]
  have h3 : replaceList bsnS brS (('$' :: x1) ++ brS ++ (x2 ++ ['$'])) =
      ('$' :: x1) ++ brS ++ (x2 ++ ['$']) :=
    replNo (hasSub_false_of_not_mem (show '\\' ∈ bsnS by decide)
      (nmC (by decide) (nmA (nmA hbs1 (by decide)) (nmA hbs2 (by decide)))))
  have h4 : escTags (('$' :: x1) ++ brS ++ (x2 ++ ['$'])) =
      ('$' :: x1) ++ brS ++ (x2 ++ ['$']) := by
    have hsh : ('$' :: x1) ++ brS ++ (x2 ++ ['$']) =
        ('$' :: x1) ++ '<' :: ('b' :: 'r' :: '>' :: (x2 ++ ['$'])) := by
      rw [hbrS]
      simp
    rw [hsh]
    apply escTags_id_marker
    · exact nmC (by decide) hlt1
    · exact nmC (by decide) (nmC (by decide) (nmC (by decide) (nmA hlt2 (by decide))))
    · intro tg htg
      exact tags_tail_no_b tg htg
  have hX : ('$' :: x1) ++ brS ++ (x2 ++ ['$']) =
      '$' :: ((x1 ++ ('<' :: 'b' :: 'r' :: '>' :: x2)) ++ ['$']) := by
    rw [hbrS]
    simp
  have hdX : '$' ∉ x1 ++ ('<' :: 'b' :: 'r' :: '>' :: x2) :=
    nmA hd1 (nmC (by decide) (nmC (by decide) (nmC (by decide) (nmC (by decide) hd2))))
  have hnlX : '\n' ∉ x1 ++ ('<' :: 'b' :: 'r' :: '>' :: x2) :=
    nmA hnl1 (nmC (by decide) (nmC (by decide) (nmC (by decide) (nmC (by decide) hnl2))))
  have h5 : replaceList ddS dS (('$' :: x1) ++ brS ++ (x2 ++ ['$'])) =
      ('$' :: x1) ++ brS ++ (x2 ++ ['$']) := by
    apply replNo
    apply adjFree_no_dd
    rw [hX]
    exact adjFree_dollar_cons hdX append_cons_ne_nil (adjFree_append_nodollar hdX rfl)
  rw [h0, h1, h2, h3, h4, h5, hX]
  exact mathSub_single hdX hnlX

theorem claim_c4_threespan (x y z : Str) (hbx : ∀ c ∈ x, benignChar c = true)
    (hby : ∀ c ∈ y, benignChar c = true) (hbz : ∀ c ∈ z, benignChar c = true)
    (hnex : x ≠ []) (hney : y ≠ []) (hnez : z ≠ []) :
    processTextualContent false ('$' :: (x ++ '$' :: (y ++ '$' :: (z ++ ['$'])))) =
      mathO ++ x ++ mathC ++ (y ++ (mathO ++ z ++ mathC)) := by
  obtain ⟨hdx, hnlx, hbtx, hbsx, hltx⟩ := benign_split hbx
  obtain ⟨hdy, hnly, hbty, hbsy, hlty⟩ := benign_split hby
  obtain ⟨hdz, hnlz, hbtz, hbsz, hltz⟩ := benign_split hbz
  set t : Str := '$' :: (x ++ '$' :: (y ++ '$' :: (z ++ ['$']))) with ht
  have hdd : hasSub ddS t = false := by
    apply adjFree_no_dd
    rw [ht]
    have a1 : adjFree (z ++ ['$']) = true := adjFree_append_nodollar hdz rfl
    have a2 : adjFree ('$' :: (z ++ ['$'])) = true := adjFree_dollar_cons hdz hnez a1
    have a3 : adjFree (y ++ '$' :: (z ++ ['$'])) = true := adjFree_append_nodollar hdy a2
    have a4 : adjFree ('$' :: (y ++ '$' :: (z ++ ['$']))) = true :=
      adjFree_dollar_cons hdy hney a3
    have a5 : adjFree (x ++ '$' :: (y ++ '$' :: (z ++ ['$']))) = true :=
      adjFree_append_nodollar hdx a4
    exact adjFree_dollar_cons hdx hnex a5
  have hh : ∀ c, t.head? = some c → pyIsSpace c = false := by
    intro c hc
    rw [ht] at hc
    simp only [List.head?_cons, Option.some.injEq] at hc
    subst hc
    decide
  have hl : ∀ c, t.getLast? = some c → pyIsSpace c = false := by
    intro c hc
    have hsh : t = ('$' :: (x ++ '$' :: (y ++ '$' :: z))) ++ ['$'] := by rw [ht]; simp
    rw [hsh, List.getLast?_concat] at hc
    simp only [Option.some.injEq] at hc
    subst hc
    decide
  rw [ptc_benign
    (nmC (by decide) (nmA hbtx (nmC (by decide) (nmA hbty
      (nmC (by decide) (nmA hbtz (by decide)))))))
    (nmC (by decide) (nmA hltx (nmC (by decide) (nmA hlty
      (nmC (by decide) (nmA hltz (by decide)))))))
    (nmC (by decide) (nmA hbsx (nmC (by decide) (nmA hbsy
      (nmC (by decide) (nmA hbsz (by decide)))))))
    (nmC (by decide) (nmA hnlx (nmC (by decide) (nmA hnly
      (nmC (by decide) (nmA hnlz (by decide)))))))
    hdd hh hl]
  have e1 : ('$' :: (x ++ '$' :: (y ++ '$' :: (z ++ ['$']))) : Str) =
      '$' :: x ++ '$' :: (y ++ '$' :: (z ++ ['$'])) := by simp
  rw [e1]
  have hstep1 := mathSubAt (a := []) (x := x) (b := y ++ '$' :: (z ++ ['$']))
    (by simp) hdx hnlx
  simp only [List.nil_append] at hstep1
  rw [hstep1]
  have e2 : (y ++ '$' :: (z ++ ['$']) : Str) = y ++ '$' :: z ++ '$' :: [] := by simp
  rw [e2]
  have hstep2 := mathSubAt (a := y) (x := z) (b := []) hdy hdz hnlz
  rw [mathSub] at hstep2
  rw [hstep2]
  simp [mathSubGo]

theorem hasSub_self (p : Str) : hasSub p p = true := by
  have := hasSub_of_decomp p [] []
  simpa using this

theorem ends_strip_mid {a mid b : Str} (hmne : mid ≠ [])
    (hha : ∀ c, a.head? = some c → pyIsSpace c = false)
    (hlb : ∀ c, b.getLast? = some c → pyIsSpace c = false)
    (hhm : ∀ c, mid.head? = some c → pyIsSpace c = false)
    (hlm : ∀ c, mid.getLast? = some c → pyIsSpace c = false) :
    (∀ c, (a ++ mid ++ b).head? = some c → pyIsSpace c = false) ∧
    (∀ c, (a ++ mid ++ b).getLast? = some c → pyIsSpace c = false) := by
  constructor
  · intro c hc
    cases a with
    | nil =>
      rw [List.nil_append] at hc
      cases mid with
      | nil => exact absurd rfl hmne
      | cons m ms =>
        rw [List.cons_append, List.head?_cons] at hc
        simp only [Option.some.injEq] at hc
        subst hc
        exact hhm _ rfl
    | cons x xs =>
      rw [List.append_assoc, List.cons_append, List.head?_cons] at hc
      simp only [Option.some.injEq] at hc
      subst hc
      exact hha _ rfl
  · intro c hc
    cases b with
    | nil =>
      rw [List.append_nil] at hc
      rw [List.getLast?_append_of_ne_nil _ hmne] at hc
      exact hlm c hc
    | cons y ys =>
      rw [List.append_assoc, List.getLast?_append_of_ne_nil _
        (by simp : (mid ++ y :: ys : Str) ≠ []),
        List.getLast?_append_of_ne_nil _ (by simp : (y :: ys : Str) ≠ [])] at hc
      exact hlb c hc

theorem adjFree_nodollar {l : Str} (h : '$' ∉ l) : adjFree l = true := by
  induction l with
  | nil => rfl
  | cons c r ih =>
    have hc : c ≠ '$' := fun hh => h (hh ▸ List.mem_cons_self c r)
    have hr := ih (fun hm => h (List.mem_cons_of_mem _ hm))
    cases r with
    | nil => rfl
    | cons d w =>
      rw [adjFree, hr]
      simp [hc]

theorem adjFree_dollar_head {b : Str} (hb : '$' ∉ b) : adjFree ('$' :: b) = true := by
  cases b with
  | nil => rfl
  | cons c r =>
    have hc : c ≠ '$' := fun hh => hb (hh ▸ List.mem_cons_self c r)
    rw [adjFree, adjFree_nodollar hb]
    simp [hc]

theorem claim_c4_ctx (a x b : Str)
    (hba : ∀ c ∈ a, benignChar c = true)
    (hbx : ∀ c ∈ x, benignChar c = true)
    (hbb : ∀ c ∈ b, benignChar c = true)
    (hne : x ≠ [])
    (hha : ∀ c, a.head? = some c → pyIsSpace c = false)
    (hlb : ∀ c, b.getLast? = some c → pyIsSpace c = false) :
    processTextualContent false (a ++ ('$' :: (x ++ ['$'])) ++ b) =
      a ++ mathO ++ x ++ mathC ++ b := by
  obtain ⟨hda, hnla, hbta, hbsa, hlta⟩ := benign_split hba
  obtain ⟨hdx, hnlx, hbtx, hbsx, hltx⟩ := benign_split hbx
  obtain ⟨hdb, hnlb, hbtb, hbsb, hltb⟩ := benign_split hbb
  have hbtm : '`' ∉ ('$' :: (x ++ ['$']) : Str) :=
    nmC (by decide) (nmA hbtx (by decide))
  have hnlm : '\n' ∉ ('$' :: (x ++ ['$']) : Str) :=
    nmC (by decide) (nmA hnlx (by decide))
  have hbsm : '\\' ∉ ('$' :: (x ++ ['$']) : Str) :=
    nmC (by decide) (nmA hbsx (by decide))
  have hltm : '<' ∉ ('$' :: (x ++ ['$']) : Str) :=
    nmC (by decide) (nmA hltx (by decide))
  show mathSub (replaceList ddS dS (escTags (replaceList bsnS brS
      (replaceList nlS brS (pyStrip (fenceStep false
        (a ++ ('$' :: (x ++ ['$'])) ++ b))))))) = _
  have h0 : fenceStep false (a ++ ('$' :: (x ++ ['$'])) ++ b) =
      a ++ ('$' :: (x ++ ['$'])) ++ b :=
    fenceStep_id_no_tick (nmA (nmA hbta hbtm) hbtb)
  obtain ⟨hwh, hwl⟩ := wrap_ends_strip (x := x)
  obtain ⟨hhh, hll⟩ := ends_strip_mid (show ('$' :: (x ++ ['$']) : Str) ≠ [] by simp)
    hha hlb hwh hwl
  have h1 := pyStripId hhh hll
  have h2 : replaceList nlS brS (a ++ ('$' :: (x ++ ['$'])) ++ b) =
      a ++ ('$' :: (x ++ ['$'])) ++ b :=
    replNo (hasSub_false_of_not_mem (show '\n' ∈ nlS by decide)
      (nmA (nmA hnla hnlm) hnlb))
  have h3 : replaceList bsnS brS (a ++ ('$' :: (x ++ ['$'])) ++ b) =
      a ++ ('$' :: (x ++ ['$'])) ++ b :=
    replNo (hasSub_false_of_not_mem (show '\\' ∈ bsnS by decide)
      (nmA (nmA hbsa hbsm) hbsb))
  have h4 : escTags (a ++ ('$' :: (x ++ ['$'])) ++ b) =
      a ++ ('$' :: (x ++ ['$'])) ++ b :=
    escTags_id (nmA (nmA hlta hltm) hltb)
  have hadj : adjFree (a ++ ('$' :: (x ++ ['$'])) ++ b) = true := by
    have hsh : a ++ ('$' :: (x ++ ['$'])) ++ b = a ++ ('$' :: (x ++ '$' :: b)) := by
      simp
    rw [hsh]
    exact adjFree_append_nodollar hda (adjFree_dollar_cons hdx hne
      (adjFree_append_nodollar hdx (adjFree_dollar_head hdb)))
  have h5 : replaceList ddS dS (a ++ ('$' :: (x ++ ['$'])) ++ b) =
      a ++ ('$' :: (x ++ ['$'])) ++ b :=
    replNo (adjFree_no_dd hadj)
  have hsh2 : a ++ ('$' :: (x ++ ['$'])) ++ b = a ++ '$' :: x ++ '$' :: b := by simp
  have h6 : mathSub (a ++ ('$' :: (x ++ ['$'])) ++ b) =
      a ++ mathO ++ x ++ mathC ++ b := by
    rw [hsh2, mathSubAt hda hdx hnlx, mathSubGo_none_id hdb]
  rw [h0, h1, h2, h3, h4, h5, h6]

/-- C4: for every textual input containing a dollar-delimited math span
`$x$` (with benign span content, in a context of benign surrounding
characters), the processed output contains `\( x \)` and no literal `$x$`
remains; double-dollar delimiters are first collapsed to single dollars
(`$$x$$` processes identically to `$x$`); and every `$...$` span is
rewritten non-greedily (`$x$y$z$` yields two spans), with spans whose
content crosses a line boundary of the original text also rewritten (the
newline having become `<br>`). -/
theorem claim_C4 :
    (∀ a x b : Str, (∀ c ∈ a, benignChar c = true) → (∀ c ∈ x, benignChar c = true) →
      (∀ c ∈ b, benignChar c = true) → x ≠ [] →
      (∀ c, a.head? = some c → pyIsSpace c = false) →
      (∀ c, b.getLast? = some c → pyIsSpace c = false) →
      processTextualContent false (a ++ ('$' :: (x ++ ['$'])) ++ b) =
        a ++ mathO ++ x ++ mathC ++ b ∧
      hasSub (mathO ++ x ++ mathC)
        (processTextualContent false (a ++ ('$' :: (x ++ ['$'])) ++ b)) = true ∧
      hasSub ('$' :: (x ++ ['$']))
        (processTextualContent false (a ++ ('$' :: (x ++ ['$'])) ++ b)) = false) ∧
    (∀ x : Str, (∀ c ∈ x, benignChar c = true) → x ≠ [] →
      processTextualContent false ('$' :: (x ++ ['$'])) = mathO ++ x ++ mathC ∧
      hasSub (mathO ++ x ++ mathC)
        (processTextualContent false ('$' :: (x ++ ['$']))) = true ∧
      hasSub ('$' :: (x ++ ['$']))
        (processTextualContent false ('$' :: (x ++ ['$']))) = false ∧
      processTextualContent false ('$' :: '$' :: (x ++ ['$', '$'])) =
        processTextualContent false ('$' :: (x ++ ['$']))) ∧
    (∀ x1 x2 : Str, (∀ c ∈ x1, benignChar c = true) → (∀ c ∈ x2, benignChar c = true) →
      processTextualContent false ('$' :: (x1 ++ '\n' :: (x2 ++ ['$']))) =
        mathO ++ (x1 ++ ('<' :: 'b' :: 'r' :: '>' :: x2)) ++ mathC) ∧
    (∀ x y z : Str, (∀ c ∈ x, benignChar c = true) → (∀ c ∈ y, benignChar c = true) →
      (∀ c ∈ z, benignChar c = true) → x ≠ [] → y ≠ [] → z ≠ [] →
      processTextualContent false ('$' :: (x ++ '$' :: (y ++ '$' :: (z ++ ['$'])))) =
        mathO ++ x ++ mathC ++ (y ++ (mathO ++ z ++ mathC))) := by
  refine ⟨?_, ?_, claim_c4_multiline, claim_c4_threespan⟩
  · intro a x b hba hbx hbb hne hha hlb
    have h1 := claim_c4_ctx a x b hba hbx hbb hne hha hlb
    refine ⟨h1, ?_, ?_⟩
    · rw [h1]
      have hsh : a ++ mathO ++ x ++ mathC ++ b = a ++ (mathO ++ x ++ mathC) ++ b := by
        simp
      rw [hsh]
      exact hasSub_of_decomp _ _ _
    · rw [h1]
      have hnd : '$' ∉ a ++ mathO ++ x ++ mathC ++ b :=
        nmA (nmA (nmA (nmA (benign_split hba).1 (by decide)) (benign_split hbx).1)
          (by decide)) (benign_split hbb).1
      exact hasSub_false_of_not_mem (List.mem_cons_self _ _) hnd
  · intro x hbx hne
    have h1 := claim_c4_part1 x hbx hne
    have hd : '$' ∉ x := (benign_split hbx).1
    refine ⟨h1, ?_, ?_, ?_⟩
    · rw [h1]
      exact hasSub_self _
    · rw [h1]
      exact hasSub_false_of_not_mem (List.mem_cons_self _ _) (no_dollar_out hd)
    · rw [h1, claim_c4_part1dd x hbx]

/-- Witness for C4 at concrete inputs, including a span with surrounding
text. -/
theorem claim_C4_witness :
    processTextualContent false (strL "What is $2+2$?") = strL "What is \\( 2+2 \\)?" ∧
    hasSub (strL "$2+2$") (processTextualContent false (strL "What is $2+2$?")) = false ∧
    processTextualContent false (strL "$2+2$") = strL "\\( 2+2 \\)" ∧
    hasSub (strL "$2+2$") (processTextualContent false (strL "$2+2$")) = false ∧
    processTextualContent false (strL "$$2+2$$") = processTextualContent false (strL "$2+2$") ∧
    processTextualContent false (strL "$a\nb$") = strL "\\( a<br>b \\)" ∧
    processTextualContent false (strL "$x$mid$z$") = strL "\\( x \\)mid\\( z \\)" := by
  have e0 : strL "What is $2+2$?" =
      strL "What is " ++ ('$' :: (strL "2+2" ++ ['$'])) ++ strL "?" := by decide
  have h0 := claim_C4.1 (strL "What is ") (strL "2+2") (strL "?")
    (by decide) (by decide) (by decide) (by decide) (by decide) (by decide)
  have e1 : strL "$2+2$" = '$' :: (strL "2+2" ++ ['$']) := by decide
  have h := claim_C4.2.1 (strL "2+2") (by decide) (by decide)
  have e4 : strL "$a\nb$" = '$' :: (strL "a" ++ '\n' :: (strL "b" ++ ['$'])) := by decide
  have h4 := claim_C4.2.2.1 (strL "a") (strL "b") (by decide) (by decide)
  have e5 : strL "$x$mid$z$" =
      '$' :: (strL "x" ++ '$' :: (strL "mid" ++ '$' :: (strL "z" ++ ['$']))) := by decide
  have h5 := claim_C4.2.2.2 (strL "x") (strL "mid") (strL "z")
    (by decide) (by decide) (by decide) (by decide) (by decide) (by decide)
  refine ⟨?_, ?_, ?_, ?_, ?_, ?_, ?_⟩
  · rw [e0, h0.1]
    decide
  · rw [e0]
    rw [show strL "$2+2$" = '$' :: (strL "2+2" ++ ['$']) by decide]
    exact h0.2.2
  · rw [e1, h.1]
    decide
  · rw [e1, h.1]
    decide
  · rw [e1, show strL "$$2+2$$" = '$' :: '$' :: (strL "2+2" ++ ['$', '$']) by decide]
    exact h.2.2.2
  · rw [e4, h4]
    decide
  · rw [e5, h5]
    decide

/-! ## Supporting lemmas for the special-tag claim -/

theorem tags_benign :
    ∀ t ∈ specialTags, '`' ∉ t ∧ '\\' ∉ t ∧ '\n' ∉ t ∧ '$' ∉ t := by decide

theorem tags_esc_benign :
    ∀ t ∈ specialTags, '$' ∉ escAngles t ∧ '<' ∉ escAngles t := by decide

theorem tags_head_lt : ∀ t ∈ specialTags, t.head? = some '<' := by decide

theorem tags_last_gt : ∀ t ∈ specialTags, t.getLast? = some '>' := by decide

theorem claim_c5_part1 (tag : Str) (htag : tag ∈ specialTags) (a b : Str)
    (hba : ∀ c ∈ a, benignChar c = true) (hbb : ∀ c ∈ b, benignChar c = true)
    (hha : ∀ c, a.head? = some c → pyIsSpace c = false)
    (hlb : ∀ c, b.getLast? = some c → pyIsSpace c = false) :
    processTextualContent false (a ++ tag ++ b) = a ++ escAngles tag ++ b := by
  obtain ⟨hda, hnla, hbta, hbsa, hlta⟩ := benign_split hba
  obtain ⟨hdb, hnlb, hbtb, hbsb, hltb⟩ := benign_split hbb
  obtain ⟨htb, htbs, htnl, htd⟩ := tags_benign tag htag
  obtain ⟨hed, helt⟩ := tags_esc_benign tag htag
  have htagne : tag ≠ [] := by
    intro hh
    have := tags_head_lt tag htag
    rw [hh] at this
    simp at this
  show mathSub (replaceList ddS dS (escTags (replaceList bsnS brS
      (replaceList nlS brS (pyStrip (fenceStep false (a ++ tag ++ b))))))) = _
  have h0 : fenceStep false (a ++ tag ++ b) = a ++ tag ++ b :=
    fenceStep_id_no_tick (nmA (nmA hbta htb) hbtb)
  obtain ⟨hhh, hll⟩ := ends_strip_mid htagne hha hlb
    (fun c hc => by rw [tags_head_lt tag htag] at hc
                    simp only [Option.some.injEq] at hc
                    subst hc
                    decide)
    (fun c hc => by rw [tags_last_gt tag htag] at hc
                    simp only [Option.some.injEq] at hc
                    subst hc
                    decide)
  have h1 : pyStrip (a ++ tag ++ b) = a ++ tag ++ b := pyStripId hhh hll
  have h2 : replaceList nlS brS (a ++ tag ++ b) = a ++ tag ++ b :=
    replNo (hasSub_false_of_not_mem (show '\n' ∈ nlS by decide)
      (nmA (nmA hnla htnl) hnlb))
  have h3 : replaceList bsnS brS (a ++ tag ++ b) = a ++ tag ++ b :=
    replNo (hasSub_false_of_not_mem (show '\\' ∈ bsnS by decide)
      (nmA (nmA hbsa htbs) hbsb))
  have h4 : escTags (a ++ tag ++ b) = a ++ escAngles tag ++ b :=
    escTags_apply htag hlta hltb
  have h5 : replaceList ddS dS (a ++ escAngles tag ++ b) = a ++ escAngles tag ++ b :=
    replNo (hasSub_false_of_not_mem (show '$' ∈ ddS by decide)
      (nmA (nmA hda hed) hdb))
  have h6 : mathSub (a ++ escAngles tag ++ b) = a ++ escAngles tag ++ b :=
    mathSubGo_none_id (nmA (nmA hda hed) hdb)
  rw [h0, h1, h2, h3, h4, h5, h6]

theorem claim_c5_part2 (w a b : Str) (hbw : ∀ c ∈ w, benignChar c = true)
    (hgw : '>' ∉ w) (hnot : ('<' :: w ++ ['>'] : Str) ∉ specialTags)
    (hba : ∀ c ∈ a, benignChar c = true) (hbb : ∀ c ∈ b, benignChar c = true)
    (hha : ∀ c, a.head? = some c → pyIsSpace c = false)
    (hlb : ∀ c, b.getLast? = some c → pyIsSpace c = false) :
    processTextualContent false (a ++ ('<' :: w ++ ['>']) ++ b) =
      a ++ ('<' :: w ++ ['>']) ++ b := by
  obtain ⟨hda, hnla, hbta, hbsa, hlta⟩ := benign_split hba
  obtain ⟨hdb, hnlb, hbtb, hbsb, hltb⟩ := benign_split hbb
  obtain ⟨hdw, hnlw, hbtw, hbsw, hltw⟩ := benign_split hbw
  show mathSub (replaceList ddS dS (escTags (replaceList bsnS brS
      (replaceList nlS brS (pyStrip (fenceStep false
        (a ++ ('<' :: w ++ ['>']) ++ b))))))) = _
  have h0 : fenceStep false (a ++ ('<' :: w ++ ['>']) ++ b) =
      a ++ ('<' :: w ++ ['>']) ++ b :=
    fenceStep_id_no_tick (nmA (nmA hbta (nmC (by decide) (nmA hbtw (by decide)))) hbtb)
  obtain ⟨hhh, hll⟩ := ends_strip_mid (show ('<' :: w ++ ['>'] : Str) ≠ [] by simp)
    hha hlb
    (fun c hc => by simp only [List.cons_append, List.head?_cons, Option.some.injEq] at hc
                    subst hc
                    decide)
    (fun c hc => by rw [show ('<' :: w ++ ['>'] : Str) = ('<' :: w) ++ ['>'] by simp,
                      List.getLast?_concat] at hc
                    simp only [Option.some.injEq] at hc
                    subst hc
                    decide)
  have h1 := pyStripId hhh hll
  have h2 : replaceList nlS brS (a ++ ('<' :: w ++ ['>']) ++ b) =
      a ++ ('<' :: w ++ ['>']) ++ b :=
    replNo (hasSub_false_of_not_mem (show '\n' ∈ nlS by decide)
      (nmA (nmA hnla (nmC (by decide) (nmA hnlw (by decide)))) hnlb))
  have h3 : replaceList bsnS brS (a ++ ('<' :: w ++ ['>']) ++ b) =
      a ++ ('<' :: w ++ ['>']) ++ b :=
    replNo (hasSub_false_of_not_mem (show '\\' ∈ bsnS by decide)
      (nmA (nmA hbsa (nmC (by decide) (nmA hbsw (by decide)))) hbsb))
  have hsh : a ++ ('<' :: w ++ ['>']) ++ b = a ++ '<' :: (w ++ '>' :: b) := by simp
  have h4 : escTags (a ++ ('<' :: w ++ ['>']) ++ b) = a ++ ('<' :: w ++ ['>']) ++ b := by
    rw [hsh]
    exact foldRepl_id (otherTag_noOcc hltw hgw hlta hltb hnot)
  have hnd : '$' ∉ a ++ ('<' :: w ++ ['>']) ++ b :=
    nmA (nmA hda (nmC (by decide) (nmA hdw (by decide)))) hdb
  have h5 : replaceList ddS dS (a ++ ('<' :: w ++ ['>']) ++ b) =
      a ++ ('<' :: w ++ ['>']) ++ b :=
    replNo (hasSub_false_of_not_mem (show '$' ∈ ddS by decide) hnd)
  have h6 : mathSub (a ++ ('<' :: w ++ ['>']) ++ b) = a ++ ('<' :: w ++ ['>']) ++ b :=
    mathSubGo_none_id hnd
  rw [h0, h1, h2, h3, h4, h5, h6]

/-- C5: for every textual input containing a tag from the fixed special-tag
set (in a context of benign surrounding characters), the processed output
contains the entity-escaped form of the tag, no raw occurrence of that tag
survives, and an angle-bracket tag outside the fixed set in the same kind of
context is left entirely unescaped. -/
theorem claim_C5 :
    (∀ tag ∈ specialTags, ∀ a b : Str,
      (∀ c ∈ a, benignChar c = true) → (∀ c ∈ b, benignChar c = true) →
      (∀ c, a.head? = some c → pyIsSpace c = false) →
      (∀ c, b.getLast? = some c → pyIsSpace c = false) →
      processTextualContent false (a ++ tag ++ b) = a ++ escAngles tag ++ b ∧
      hasSub (escAngles tag) (processTextualContent false (a ++ tag ++ b)) = true ∧
      hasSub tag (processTextualContent false (a ++ tag ++ b)) = false) ∧
    (∀ w a b : Str, (∀ c ∈ w, benignChar c = true) → '>' ∉ w →
      ('<' :: w ++ ['>'] : Str) ∉ specialTags →
      (∀ c ∈ a, benignChar c = true) → (∀ c ∈ b, benignChar c = true) →
      (∀ c, a.head? = some c → pyIsSpace c = false) →
      (∀ c, b.getLast? = some c → pyIsSpace c = false) →
      processTextualContent false (a ++ ('<' :: w ++ ['>']) ++ b) =
        a ++ ('<' :: w ++ ['>']) ++ b) := by
  refine ⟨?_, claim_c5_part2⟩
  intro tag htag a b hba hbb hha hlb
  have h1 := claim_c5_part1 tag htag a b hba hbb hha hlb
  refine ⟨h1, ?_, ?_⟩
  · rw [h1]
    exact hasSub_of_decomp _ _ _
  · rw [h1]
    apply noOcc_of_no_lt htag
    exact nmA (nmA (benign_split hba).2.2.2.2 (tags_esc_benign tag htag).2)
      (benign_split hbb).2.2.2.2

/-- Witness for C5 at concrete inputs. -/
theorem claim_C5_witness :
    processTextualContent false (strL "a <think> b") = strL "a &lt;think&gt; b" ∧
    hasSub (strL "<think>") (processTextualContent false (strL "a <think> b")) = false ∧
    processTextualContent false (strL "a <div> b") = strL "a <div> b" := by
  have e1 : strL "a <think> b" = strL "a " ++ strL "<think>" ++ strL " b" := by decide
  have htag : strL "<think>" ∈ specialTags := by decide
  have h := claim_C5.1 (strL "<think>") htag (strL "a ") (strL " b")
    (by decide) (by decide) (by decide) (by decide)
  have e2 : strL "a <div> b" = strL "a " ++ ('<' :: strL "div" ++ ['>']) ++ strL " b" := by
    decide
  have h2 := claim_C5.2 (strL "div") (strL "a ") (strL " b")
    (by decide) (by decide) (by decide) (by decide) (by decide) (by decide) (by decide)
  refine ⟨?_, ?_, ?_⟩
  · rw [e1, h.1]
    try decide
  · rw [e1]
    exact h.2.2
  · rw [e2, h2]
    try decide

/-- C9: for a textual input whose first line contains a fenced code-block
delimiter, when the fence pattern (optionally tagged `markdown`) has a
non-empty inner match, the extraction step replaces the text by the inner
content of the first such match; when the pattern yields no match (no
closing fence) or only an empty inner match, the text is left unchanged. -/
theorem claim_C9 :
    (∀ (hasMd : Bool) (ws1 inner ws2 tail : Str),
      (∀ c ∈ ws1, pyIsSpace c = true) → ws1 ≠ [] → inner ≠ [] →
      (∀ c, inner.head? = some c → pyIsSpace c = false) →
      (∀ c, inner.getLast? = some c → pyIsSpace c = false) →
      '`' ∉ inner → (∀ c ∈ ws2, pyIsSpace c = true) →
      fenceStep false
        (ccc ++ ((if hasMd then mdWord else []) ++
          (ws1 ++ (inner ++ (ws2 ++ (ccc ++ tail)))))) = inner) ∧
    (∀ a : Str, '`' ∉ a → fenceStep false (ccc ++ a) = ccc ++ a) ∧
    fenceStep false (strL "``````") = strL "``````" := by
  refine ⟨?_, fun a ha => fenceStep_no_close ha, by decide⟩
  intro hasMd ws1 inner ws2 tail hws1 hw1ne hne hhead hlast hnb hws2
  have htne : ∀ (R : Str), (ccc ++ R : Str) ≠ [] := by
    intro R h0
    have := congrArg List.length h0
    simp [ccc, strL] at this
  cases hasMd with
  | true =>
    rw [if_pos rfl]
    apply fenceStep_extract (firstLine_ccc) (htne _) hne
    have hm := @fenceMatchAt_md ws1 inner ws2 tail hws1 hne hhead hlast hnb hws2
    obtain ⟨rest, hs⟩ := fenceScan_cons (htne _) hm
    exact ⟨mdWord, rest, hs⟩
  | false =>
    rw [if_neg Bool.false_ne_true, List.nil_append]
    apply fenceStep_extract (firstLine_ccc) (htne _) hne
    have hm := @fenceMatchAt_nomd ws1 inner ws2 tail hws1 hw1ne hne hhead hlast hnb hws2
    obtain ⟨rest, hs⟩ := fenceScan_cons (htne _) hm
    exact ⟨[], rest, hs⟩

/-- Witness for C9 at concrete inputs: a tagged fenced block is replaced by
its inner content, and a text with an unclosed fence is left unchanged. -/
theorem claim_C9_witness :
    fenceStep false (strL "```markdown\nHello\n```tail") = strL "Hello" ∧
    fenceStep false (strL "```abc") = strL "```abc" ∧
    fenceStep false (strL "``````") = strL "``````" := by
  have e1 : strL "```markdown\nHello\n```tail" =
      ccc ++ ((if true then mdWord else []) ++
        (['\n'] ++ (strL "Hello" ++ (['\n'] ++ (ccc ++ strL "tail"))))) := by decide
  have h1 := claim_C9.1 true ['\n'] (strL "Hello") ['\n'] (strL "tail")
    (by decide) (by decide) (by decide) (by decide) (by decide) (by decide) (by decide)
  have e2 : strL "```abc" = ccc ++ strL "abc" := by decide
  have h2 := claim_C9.2.1 (strL "abc") (by decide)
  refine ⟨?_, ?_, claim_C9.2.2⟩
  · rw [e1]
    exact h1
  · rw [e2, h2]
    try decide

/-! ## Image-normalization claims -/

/-- C2 counterexample: with a world whose fetch raises a connection error
(and one whose response has a failing HTTP status), `image_to_html` on an
`http(s)://` string propagates the exception instead of producing a
placeholder fragment, refuting the claim that fetch failures are swallowed. -/
theorem claim_C2_counterexample :
    imageToHtml wErr (Value.str (strL "http://example.com/a.png")) 320 =
      Except.error PyErr.connErr ∧
    imageToHtml wBad (Value.str (strL "https://example.com/b.png")) 320 =
      Except.error PyErr.httpStatus ∧
    (∀ s : Str, Except.error PyErr.connErr ≠ (Except.ok s : Except PyErr Str)) :=
  ⟨rfl, rfl, fun _ h => Except.noConfusion h⟩

theorem exceptBind_err {α β : Type} (e : PyErr) (f : α → Except PyErr β) :
    (Except.error e : Except PyErr α) >>= f = Except.error e := rfl

theorem exceptBind_ok {α β : Type} (a : α) (f : α → Except PyErr β) :
    (Except.ok a : Except PyErr α) >>= f = f a := rfl

/-- C2 amended: for an image cell holding an `http://` or `https://` URL
string, a network error or a failing HTTP status during the fetch
propagates as an exception to the caller of the normalization; only a local
file-not-found (and empty or unsupported inputs) degrades to a placeholder. -/
theorem claim_C2 :
    (∀ (w : World) (url : Str) (e : PyErr),
      (isPref httpPre url || isPref httpsPre url) = true →
      w.fetch url = Except.error e →
      imageToHtml w (Value.str url) 320 = Except.error e) ∧
    (∀ (w : World) (url : Str) (r : HttpResp),
      (isPref httpPre url || isPref httpsPre url) = true →
      w.fetch url = Except.ok r → r.ok = false →
      imageToHtml w (Value.str url) 320 = Except.error PyErr.httpStatus) ∧
    (∀ (w : World) (p : Str),
      (isPref httpPre p || isPref httpsPre p) = false → p ≠ [] →
      w.readFile p = Option.none →
      imageToHtml w (Value.str p) 320 = Except.ok notFoundDiv) := by
  have hne : ∀ (url : Str), (isPref httpPre url || isPref httpsPre url) = true →
      url.isEmpty = false := by
    intro url hp
    cases url with
    | nil => simp [httpPre, httpsPre, strL, isPref] at hp
    | cons c cs => rfl
  refine ⟨?_, ?_, ?_⟩
  · intro w url e hp hf
    rw [imageToHtml]
    rw [if_neg (by simp [hne url hp])]
    simp [imageToBase64, hp, hf, exceptBind_err, exceptBind_ok]
  · intro w url r hp hf hok
    rw [imageToHtml]
    rw [if_neg (by simp [hne url hp])]
    simp [imageToBase64, hp, hf, hok, exceptBind_err, exceptBind_ok, throw, throwThe, MonadExceptOf.throw]
  · intro w p hp hpne hrf
    rw [imageToHtml]
    rw [if_neg (by
      simp only [List.isEmpty_iff]
      exact hpne)]
    simp [imageToBase64, hp, hrf, exceptBind_err, exceptBind_ok]
    rfl

/-- Witness for the amended C2. -/
theorem claim_C2_witness :
    imageToHtml wErr (Value.str (strL "http://x")) 320 = Except.error PyErr.connErr ∧
    imageToHtml wBad (Value.str (strL "http://x")) 320 = Except.error PyErr.httpStatus ∧
    imageToHtml wErr (Value.str (strL "missing.png")) 320 = Except.ok notFoundDiv :=
  ⟨claim_C2.1 wErr (strL "http://x") PyErr.connErr (by decide) rfl,
   claim_C2.2.1 wBad (strL "http://x") ⟨false, [1]⟩ (by decide) rfl rfl,
   claim_C2.2.2 wErr (strL "missing.png") (by decide) (by decide) rfl⟩

/-- C10: image normalization of a `None` cell or an empty-string cell
returns the "No image available" placeholder (which differs from the
"Image not found" fragment), for every world — so no file or network I/O
can influence the result — and raises no exception. -/
theorem claim_C10 (w : World) (v : Value) (h : v = Value.none ∨ v = Value.str []) :
    imageToHtml w v 320 = Except.ok noImageDiv ∧ noImageDiv ≠ notFoundDiv := by
  rcases h with rfl | rfl
  · exact ⟨rfl, by decide⟩
  · exact ⟨rfl, by decide⟩

/-- Witness for C10. -/
theorem claim_C10_witness :
    imageToHtml wErr Value.none 320 = Except.ok noImageDiv ∧
    imageToHtml wErr (Value.str []) 320 = Except.ok noImageDiv :=
  ⟨(claim_C10 wErr Value.none (Or.inl rfl)).1,
   (claim_C10 wErr (Value.str []) (Or.inr rfl)).1⟩

/-! ## Textual-hint claim -/

/-- C3 counterexample: the hint `"Title"` matches the column `"TITLE"` up to
case, yet the code's test is false for it (hints are not case-folded; only
the column name is lowercased), so the textual normalizer is not applied to
the column, although it would have rewritten the cell. -/
theorem claim_C3_counterexample :
    ciHintMatch [strL "Title"] (strL "TITLE") = true ∧
    isTextualCol [strL "Title"] (strL "TITLE") = false ∧
    txtPass [strL "Title"] [(strL "TITLE", [Value.str (strL "$x$")])] =
      [(strL "TITLE", [Value.str (strL "$x$")])] ∧
    processTextualValue (Value.str (strL "$x$")) = Value.str (strL "\\( x \\)") :=
  ⟨by decide, by decide, rfl, rfl⟩

/-- C3 amended: the textual normalizer is applied to a column whenever the
column name is literally in the hint list, or its lowercased form is
literally in the hint list (matching is case-insensitive only on the column
side; the built-in keyword heuristics apply in addition). -/
theorem claim_C3 (hints : List Str) (col : Str)
    (h : col ∈ hints ∨ lowerL col ∈ hints) :
    isTextualCol hints col = true ∧
    ∀ cells, txtPass hints [(col, cells)] = [(col, cells.map processTextualValue)] := by
  have h1 : isTextualCol hints col = true := by
    rw [isTextualCol]
    rcases h with h | h
    · have hc : hints.contains col = true := List.elem_eq_true_of_mem h
      rw [hc]
      simp
    · have hc : hints.contains (lowerL col) = true := List.elem_eq_true_of_mem h
      rw [hc]
      simp
  refine ⟨h1, fun cells => ?_⟩
  rw [txtPass, List.map_cons, if_pos h1, List.map_nil]

/-- Witness for the amended C3. -/
theorem claim_C3_witness :
    isTextualCol [strL "myfield"] (strL "myfield") = true ∧
    txtPass [strL "myfield"] [(strL "myfield", [Value.str (strL "hi")])] =
      [(strL "myfield", [Value.str (strL "hi")])] := by
  have h := claim_C3 [strL "myfield"] (strL "myfield")
    (Or.inl (List.mem_cons_self _ _))
  refine ⟨h.1, ?_⟩
  rw [h.2 [Value.str (strL "hi")]]
  rfl

/-! ## Lemmas about `mapE` and the dataframe passes -/

theorem mapE_ok_forall₂ {α β : Type} {f : α → Except PyErr β} :
    ∀ {l : List α} {l' : List β},
      mapE f l = Except.ok l' ↔ List.Forall₂ (fun a b => f a = Except.ok b) l l' := by
  intro l
  induction l with
  | nil =>
    intro l'
    constructor
    · intro h
      cases hh : l' with
      | nil => exact List.Forall₂.nil
      | cons b bs =>
        rw [hh] at h
        have hcontra : (Except.ok [] : Except PyErr (List β)) = Except.ok (b :: bs) := h
        simp at hcontra
    · intro h
      cases h
      rfl
  | cons a as ih =>
    intro l'
    constructor
    · intro h
      rw [mapE] at h
      cases hfa : f a with
      | error e => rw [hfa] at h; simp [exceptBind_err] at h
      | ok b =>
        rw [hfa] at h
        rw [show (Except.ok b : Except PyErr β) >>= (fun b => do
          let bs ← mapE f as
          pure (b :: bs)) = (do let bs ← mapE f as
                                pure (b :: bs)) from rfl] at h
        cases has : mapE f as with
        | error e => rw [has] at h; simp [exceptBind_err] at h
        | ok bs =>
          rw [has] at h
          simp only [exceptBind_ok] at h
          have hb : l' = b :: bs := by
            have : Except.ok (b :: bs) = (Except.ok l' : Except PyErr (List β)) := h
            cases this
            rfl
          subst hb
          exact List.Forall₂.cons hfa (ih.mp has)
    · intro h
      cases h with
      | cons hfa hrest =>
        rw [mapE]
        rename_i b bs
        rw [hfa, exceptBind_ok, ih.mpr hrest, exceptBind_ok]
        rfl

theorem mapE_ok_length {α β : Type} {f : α → Except PyErr β} {l : List α} {l' : List β}
    (h : mapE f l = Except.ok l') : l'.length = l.length :=
  (List.Forall₂.length_eq (mapE_ok_forall₂.mp h)).symm

theorem mapE_ok_getD {α β : Type} {f : α → Except PyErr β} {l : List α} {l' : List β}
    (h : mapE f l = Except.ok l') {i : Nat} (hi : i < l.length) (dα : α) (dβ : β) :
    f (l.getD i dα) = Except.ok (l'.getD i dβ) := by
  induction l generalizing l' i with
  | nil => simp at hi
  | cons a as ih =>
    have hf := mapE_ok_forall₂.mp h
    cases hf with
    | cons hfa hrest =>
      rename_i b bs
      cases i with
      | zero => simpa using hfa
      | succ j =>
        have := ih (mapE_ok_forall₂.mpr hrest) (by simpa using hi)
        simpa using this

theorem mapE_singleton {α β : Type} {f : α → Except PyErr β} {a : α} {b : β}
    (h : f a = Except.ok b) : mapE f [a] = Except.ok [b] := by
  rw [mapE, h, exceptBind_ok]
  rfl

theorem mapE_congr {α β : Type} {f g : α → Except PyErr β} {l : List α}
    (h : ∀ a ∈ l, f a = g a) : mapE f l = mapE g l := by
  induction l with
  | nil => rfl
  | cons a as ih =>
    rw [mapE, mapE, h a (List.mem_cons_self a as),
      ih (fun a' ha' => h a' (List.mem_cons_of_mem _ ha'))]

theorem dumpIfStruct_id {v : Value} (h : isDictList v = false) :
    dumpIfStruct v = Except.ok v := by
  rw [dumpIfStruct, if_neg (by simp [h])]
  rfl

theorem mapE_dump_id {cs : List Value} (h : cs.any isDictList = false) :
    mapE dumpIfStruct cs = Except.ok cs := by
  induction cs with
  | nil => rfl
  | cons v vs ih =>
    rw [List.any_cons, Bool.or_eq_false_iff] at h
    rw [mapE, dumpIfStruct_id h.1, exceptBind_ok, ih h.2, exceptBind_ok]
    rfl

theorem structPass_uniform {cols : List (Str × List Value)} :
    structPass cols = mapE (fun c =>
      if (fun (_ : Str) => true) c.1 then do
        let cs ← mapE dumpIfStruct c.2
        pure (c.1, cs)
      else pure c) cols := by
  rw [structPass]
  apply mapE_congr
  intro c _
  rw [if_pos rfl]
  cases hc : c.2.any isDictList with
  | true => rw [if_pos rfl]
  | false =>
    rw [if_neg (by simp)]
    rw [mapE_dump_id hc, exceptBind_ok]
    try rfl

theorem forall₂_mem_right {α β : Type} {R : α → β → Prop} {l : List α} {l' : List β}
    (h : List.Forall₂ R l l') {b : β} (hb : b ∈ l') : ∃ a ∈ l, R a b := by
  induction h with
  | nil => simp at hb
  | cons hR hrest ih =>
    rcases List.mem_cons.mp hb with hb | hb
    · subst hb
      exact ⟨_, List.mem_cons_self _ _, hR⟩
    · obtain ⟨a, ha, hab⟩ := ih hb
      exact ⟨a, List.mem_cons_of_mem _ ha, hab⟩

theorem namePassE_shape {g : Value → Except PyErr Value} {P : Str → Bool}
    {cols cols' : List (Str × List Value)}
    (h : mapE (fun c => if P c.1 then (do
        let cs ← mapE g c.2
        pure (c.1, cs)) else pure c) cols = Except.ok cols') :
    List.Forall₂ (fun c b => b.1 = c.1 ∧ b.2.length = c.2.length) cols cols' := by
  have hf := mapE_ok_forall₂.mp h
  apply List.Forall₂.imp _ hf
  intro c b hc
  by_cases hP : P c.1 = true
  · rw [if_pos hP] at hc
    cases hg : mapE g c.2 with
    | error e => rw [hg, exceptBind_err] at hc; exact absurd hc (by simp)
    | ok cs' =>
      rw [hg, exceptBind_ok] at hc
      have : (c.1, cs') = b := by
        have hh : (Except.ok (c.1, cs') : Except PyErr (Str × List Value)) = Except.ok b := hc
        cases hh
        rfl
      subst this
      exact ⟨rfl, mapE_ok_length hg⟩
  · rw [if_neg hP] at hc
    have : c = b := by
      have hh : (Except.ok c : Except PyErr (Str × List Value)) = Except.ok b := hc
      cases hh
      rfl
    subst this
    exact ⟨rfl, rfl⟩

theorem namePassE_slice {g : Value → Except PyErr Value} {P : Str → Bool}
    {cols cols' : List (Str × List Value)} {i : Nat}
    (h : mapE (fun c => if P c.1 then (do
        let cs ← mapE g c.2
        pure (c.1, cs)) else pure c) cols = Except.ok cols')
    (hlen : ∀ c ∈ cols, i < c.2.length) :
    mapE (fun c => if P c.1 then (do
        let cs ← mapE g c.2
        pure (c.1, cs)) else pure c) (cols.map (sliceCol i)) =
      Except.ok (cols'.map (sliceCol i)) := by
  rw [mapE_ok_forall₂] at h ⊢
  induction h with
  | nil => exact List.Forall₂.nil
  | cons hc hrest ih =>
    rename_i c b cs bs
    rw [List.map_cons, List.map_cons]
    refine List.Forall₂.cons ?_ (ih (fun c' hc' => hlen c' (List.mem_cons_of_mem _ hc')))
    have hib : i < c.2.length := hlen c (List.mem_cons_self _ _)
    by_cases hP : P c.1 = true
    · rw [if_pos hP] at hc
      cases hg : mapE g c.2 with
      | error e => rw [hg, exceptBind_err] at hc; exact absurd hc (by simp)
      | ok cs' =>
        rw [hg, exceptBind_ok] at hc
        have hb : (c.1, cs') = b := by
          have hh : (Except.ok (c.1, cs') : Except PyErr (Str × List Value)) = Except.ok b := hc
          cases hh
          rfl
        subst hb
        show (if P c.1 then (do
            let cs ← mapE g [c.2.getD i Value.none]
            pure (c.1, cs)) else pure (sliceCol i c)) =
          Except.ok (c.1, [cs'.getD i Value.none])
        rw [if_pos hP, mapE_singleton (mapE_ok_getD hg hib Value.none Value.none),
          exceptBind_ok]
        rfl
    · rw [if_neg hP] at hc
      have hb : c = b := by
        have hh : (Except.ok c : Except PyErr (Str × List Value)) = Except.ok b := hc
        cases hh
        rfl
      subst hb
      show (if P c.1 then (do
          let cs ← mapE g [c.2.getD i Value.none]
          pure (c.1, cs)) else pure (sliceCol i c)) = Except.ok (sliceCol i c)
      rw [if_neg hP]
      rfl

theorem getD_map_lt {l : List Value} {f : Value → Value} {i : Nat} (hi : i < l.length) :
    (l.map f).getD i Value.none = f (l.getD i Value.none) := by
  induction l generalizing i with
  | nil => simp at hi
  | cons a as ih =>
    cases i with
    | zero => rfl
    | succ j =>
      have := ih (i := j) (by simpa using hi)
      simpa using this

theorem txtPass_slice {tc : List Str} {cols : List (Str × List Value)} {i : Nat}
    (hlen : ∀ c ∈ cols, i < c.2.length) :
    txtPass tc (cols.map (sliceCol i)) = (txtPass tc cols).map (sliceCol i) := by
  rw [txtPass, txtPass, List.map_map, List.map_map]
  apply List.map_congr_left
  intro c hc
  show (fun c => if isTextualCol tc c.1 then (c.1, c.2.map processTextualValue) else c)
      (sliceCol i c) = sliceCol i (if isTextualCol tc c.1 then
        (c.1, c.2.map processTextualValue) else c)
  by_cases hP : isTextualCol tc c.1 = true
  · show (if isTextualCol tc c.1 then ((sliceCol i c).1, (sliceCol i c).2.map
      processTextualValue) else sliceCol i c) = _
    rw [if_pos hP, if_pos hP]
    show (c.1, [c.2.getD i Value.none].map processTextualValue) =
      (c.1, [(c.2.map processTextualValue).getD i Value.none])
    rw [List.map_cons, List.map_nil, getD_map_lt (hlen c hc)]
  · show (if isTextualCol tc c.1 then ((sliceCol i c).1, (sliceCol i c).2.map
      processTextualValue) else sliceCol i c) = _
    rw [if_neg hP, if_neg hP]

/-! ## Name-level lemmas for the merge and drop passes -/

theorem beqComm {a b : Str} : (a == b) = (b == a) := by
  cases hb : (a == b) with
  | true =>
    rw [eq_of_beq hb]
    simp
  | false =>
    cases hb2 : (b == a) with
    | true =>
      rw [eq_of_beq hb2] at hb
      simp at hb
    | false => rfl

theorem anyName_eq {cols : List (Str × List Value)} {n : Str} :
    cols.any (fun col => col.1 == n) = (cols.map Prod.fst).contains n := by
  induction cols with
  | nil => rfl
  | cons c cs ih =>
    rw [List.any_cons, List.map_cons, List.contains_cons, ih, beqComm]

theorem mkCols (l : List (Str × List Value)) : (Df.mk l).cols = l := rfl

theorem names_filterP (cols : List (Str × List Value)) (p : Str → Bool) :
    (cols.filter (fun c => p c.1)).map Prod.fst = (cols.map Prod.fst).filter p := by
  induction cols with
  | nil => rfl
  | cons c cs ih =>
    cases hp : p c.1 with
    | true => simp [hp, ih]
    | false => simp [hp, ih]

theorem names_filter_contains (cols : List (Str × List Value)) (v : List Str) :
    (cols.filter (fun c => !(v.contains c.1))).map Prod.fst
      = (cols.map Prod.fst).filter (fun n => !(v.contains n)) :=
  names_filterP cols (fun n => !(v.contains n))

theorem names_filter_ne (cols : List (Str × List Value)) (nn : Str) :
    (cols.filter (fun c => !(c.1 == nn))).map Prod.fst
      = (cols.map Prod.fst).filter (fun n => !(n == nn)) :=
  names_filterP cols (fun n => !(n == nn))

theorem names_assign (df : Df) (n : Str) (cells : List Value) :
    (assignCol df n cells).cols.map Prod.fst =
      if df.cols.any (fun c => c.1 == n) then df.cols.map Prod.fst
      else df.cols.map Prod.fst ++ [n] := by
  rw [assignCol]
  cases ha : df.cols.any (fun c => c.1 == n) with
  | true =>
    rw [if_pos rfl, if_pos rfl]
    show (df.cols.map (fun c => if c.1 == n then (n, cells) else c)).map Prod.fst
      = df.cols.map Prod.fst
    rw [List.map_map]
    apply List.map_congr_left
    intro c _
    show ((if c.1 == n then (n, cells) else c) : Str × List Value).1 = c.1
    cases hcn : (c.1 == n) with
    | true =>
      rw [if_pos rfl]
      exact (eq_of_beq hcn).symm
    | false => rw [if_neg (by simp)]
  | false =>
    rw [if_neg (by simp), if_neg (by simp)]
    show (df.cols ++ [(n, cells)]).map Prod.fst = df.cols.map Prod.fst ++ [n]
    rw [List.map_append]
    rfl

theorem names_match_find (cols : List (Str × List Value)) (n : Str) :
    ((match cols.find? (fun c => c.1 == n) with
      | some c => [c]
      | Option.none => []) : List (Str × List Value)).map Prod.fst =
      if (cols.map Prod.fst).contains n then [n] else [] := by
  cases hf : cols.find? (fun c => c.1 == n) with
  | none =>
    have hnc : (cols.map Prod.fst).contains n = false := by
      cases hc : (cols.map Prod.fst).contains n with
      | false => rfl
      | true =>
        exfalso
        rw [List.contains_eq_any_beq, List.any_eq_true] at hc
        obtain ⟨m, hm, hbeq⟩ := hc
        obtain ⟨c, hcmem, hcfst⟩ := List.mem_map.mp hm
        rw [List.find?_eq_none] at hf
        exact hf c hcmem (by rw [hcfst, beqComm]; exact hbeq)
    show ([] : List (Str × List Value)).map Prod.fst =
      if (cols.map Prod.fst).contains n then [n] else []
    rw [hnc, if_neg (by simp)]
    rfl
  | some c =>
    have hp := List.find?_some hf
    have hc1 : c.1 = n := eq_of_beq hp
    have hmem := List.mem_of_find?_eq_some hf
    have hct : (cols.map Prod.fst).contains n = true := by
      rw [List.contains_eq_any_beq, List.any_eq_true]
      exact ⟨c.1, List.mem_map.mpr ⟨c, hmem, rfl⟩,
        by rw [hc1]; exact beq_self_eq_true n⟩
    show ([c]).map Prod.fst = if (cols.map Prod.fst).contains n then [n] else []
    rw [hct, if_pos rfl]
    show [c.1] = [n]
    rw [hc1]

theorem mergeStep_names {mc : Option (List Str)} {df : Df} :
    namesOf (mergeStep mc df) = mergeNamesF mc (namesOf df) := by
  cases mc with
  | none => rfl
  | some mcl =>
    simp only [mergeStep, mergeNamesF, namesOf]
    by_cases hlen : mcl.length > 1
    · rw [if_pos hlen, if_pos hlen]
      have hvalid : mcl.filter (fun c => df.cols.any (fun col => col.1 == c)) =
          mcl.filter (fun c => (df.cols.map Prod.fst).contains c) := by
        apply List.filter_congr
        intro c _
        exact anyName_eq
      rw [hvalid]
      by_cases hv :
          (mcl.filter (fun c => (df.cols.map Prod.fst).contains c)).length > 1
      · rw [if_pos hv, if_pos hv]
        simp only [mkCols]
        rw [List.map_append, names_match_find, names_filter_ne,
          names_filter_contains, names_assign, anyName_eq]
      · rw [if_neg hv, if_neg hv]
    · rw [if_neg hlen, if_neg hlen]

theorem dropStep_names {dcl : List Str} {df : Df} :
    namesOf (dropStep dcl df) = dropNamesF dcl (namesOf df) := by
  rw [dropStep, dropNamesF]
  cases hd : dcl.isEmpty with
  | true => rw [if_pos rfl, if_pos rfl]
  | false =>
    rw [if_neg (by simp), if_neg (by simp)]
    show (df.cols.filter (fun c => !(dcl.contains c.1))).map Prod.fst
      = (df.cols.map Prod.fst).filter (fun n => !(dcl.contains n))
    exact names_filter_contains df.cols dcl

/-! ## Slice lemmas for the merge and drop passes -/

theorem not_contains_of_not_mem {l : List Str} {a : Str} (h : a ∉ l) :
    l.contains a = false := by
  cases hc : l.contains a with
  | false => rfl
  | true => exact absurd (List.mem_of_elem_eq_true hc) h

theorem find?_append_none {α : Type} {p : α → Bool} {l₁ l₂ : List α}
    (h : l₁.find? p = none) : (l₁ ++ l₂).find? p = l₂.find? p := by
  induction l₁ with
  | nil => rfl
  | cons a as ih =>
    rw [List.find?_eq_none] at h
    have hpa : p a = false := by
      cases hp : p a with
      | false => rfl
      | true => exact absurd hp (h a (List.mem_cons_self a as))
    rw [List.cons_append, List.find?_cons_of_neg _ (by simp [hpa]),
      ih (List.find?_eq_none.mpr (fun x hx => h x (List.mem_cons_of_mem _ hx)))]

theorem names_slice {df : Df} {i : Nat} : namesOf (sliceDf i df) = namesOf df := by
  rw [sliceDf, namesOf, namesOf, mkCols, List.map_map]
  apply List.map_congr_left
  intro c _
  rfl

theorem find?_slice {cols : List (Str × List Value)} {n : Str} {i : Nat} :
    (cols.map (sliceCol i)).find? (fun c => c.1 == n) =
      (cols.find? (fun c => c.1 == n)).map (sliceCol i) := by
  induction cols with
  | nil => rfl
  | cons c cs ih =>
    rw [List.map_cons]
    cases hc : (c.1 == n) with
    | true => simp [sliceCol, hc]
    | false => simp [sliceCol, hc, ih]

theorem cellByName_slice {df : Df} {n : Str} {i : Nat} :
    cellByName (sliceDf i df) n 0 = cellByName df n i := by
  rw [cellByName, cellByName, sliceDf, mkCols, find?_slice]
  cases hf : df.cols.find? (fun c => c.1 == n) with
  | none => rfl
  | some c => rfl

theorem slice_filterP (cols : List (Str × List Value)) (p : Str → Bool) (i : Nat) :
    (cols.filter (fun c => p c.1)).map (sliceCol i) =
      (cols.map (sliceCol i)).filter (fun c => p c.1) := by
  induction cols with
  | nil => rfl
  | cons c cs ih =>
    cases hp : p c.1 with
    | true => simp [sliceCol, hp, ih]
    | false => simp [sliceCol, hp, ih]

theorem slice_filter_contains {cols : List (Str × List Value)} {v : List Str} {i : Nat} :
    (cols.filter (fun c => !(v.contains c.1))).map (sliceCol i)
      = (cols.map (sliceCol i)).filter (fun c => !(v.contains c.1)) :=
  slice_filterP cols (fun n => !(v.contains n)) i

theorem slice_filter_ne {cols : List (Str × List Value)} {nn : Str} {i : Nat} :
    (cols.filter (fun c => !(c.1 == nn))).map (sliceCol i)
      = (cols.map (sliceCol i)).filter (fun c => !(c.1 == nn)) :=
  slice_filterP cols (fun n => !(n == nn)) i

theorem slice_assign {df : Df} {n : Str} {cells : List Value} {i : Nat} :
    sliceDf i (assignCol df n cells) =
      assignCol (sliceDf i df) n [cells.getD i Value.none] := by
  rw [assignCol, assignCol]
  have hany : (sliceDf i df).cols.any (fun c => c.1 == n) =
      df.cols.any (fun c => c.1 == n) := by
    rw [show (sliceDf i df).cols = df.cols.map (sliceCol i) from rfl, List.any_map]
    rfl
  rw [hany]
  cases ha : df.cols.any (fun c => c.1 == n) with
  | true =>
    rw [if_pos rfl, if_pos rfl]
    show Df.mk ((df.cols.map (fun c => if c.1 == n then (n, cells) else c)).map
        (sliceCol i)) =
      Df.mk ((df.cols.map (sliceCol i)).map
        (fun c => if c.1 == n then (n, [cells.getD i Value.none]) else c))
    rw [List.map_map, List.map_map]
    apply congrArg Df.mk
    apply List.map_congr_left
    intro c _
    show sliceCol i (if c.1 == n then (n, cells) else c) =
      (if (sliceCol i c).1 == n then (n, [cells.getD i Value.none]) else sliceCol i c)
    cases hc : (c.1 == n) with
    | true =>
      rw [if_pos rfl, if_pos (show ((sliceCol i c).1 == n) = true from hc)]
      rfl
    | false =>
      rw [if_neg (by simp), if_neg (show ¬((sliceCol i c).1 == n) = true by
        simpa [sliceCol] using hc)]
  | false =>
    rw [if_neg (by simp), if_neg (by simp)]
    show Df.mk ((df.cols ++ [(n, cells)]).map (sliceCol i)) =
      Df.mk (df.cols.map (sliceCol i) ++ [(n, [cells.getD i Value.none])])
    rw [List.map_append]
    rfl

theorem slice_matchOpt {o : Option (Str × List Value)} {i : Nat} :
    ((match o with
      | some c => [c]
      | Option.none => []) : List (Str × List Value)).map (sliceCol i)
      = match o.map (sliceCol i) with
        | some c => [c]
        | Option.none => [] := by
  cases o with
  | none => rfl
  | some c => rfl

theorem matchOpt_some {c : Str × List Value} :
    ((match (some c : Option (Str × List Value)) with
      | some c => [c]
      | Option.none => []) : List (Str × List Value)) = [c] := rfl

theorem matchCell_some {c : Str × List Value} {i : Nat} :
    (match (some c : Option (Str × List Value)) with
      | some c => c.2.getD i Value.none
      | Option.none => Value.none) = c.2.getD i Value.none := rfl

theorem slice_mkMatch (X : List (Str × List Value)) (nn : Str) (i : Nat) :
    (((match X.find? (fun c => c.1 == nn) with
      | some c => [c]
      | Option.none => []) : List (Str × List Value)) ++
        X.filter (fun c => !(c.1 == nn))).map (sliceCol i)
      = ((match (X.map (sliceCol i)).find? (fun c => c.1 == nn) with
      | some c => [c]
      | Option.none => []) : List (Str × List Value)) ++
        (X.map (sliceCol i)).filter (fun c => !(c.1 == nn)) := by
  rw [List.map_append, slice_matchOpt, find?_slice, slice_filter_ne]

theorem getD_map_gen {α : Type} {l : List α} {f : α → Value} {j : Nat}
    (hj : j < l.length) (d : α) :
    (l.map f).getD j Value.none = f (l.getD j d) := by
  induction l generalizing j with
  | nil => simp at hj
  | cons a as ih =>
    cases j with
    | zero => rfl
    | succ k => simpa using ih (by simpa using hj)

theorem getD_range_map {n i : Nat} {f : Nat → Value} (h : i < n) :
    ((List.range n).map f).getD i Value.none = f i := by
  have hg := @getD_map_gen Nat (List.range n) f i (by simpa using h) 0
  rw [hg, List.getD_eq_getElem?_getD, List.getElem?_range h]
  rfl

theorem slice_merge {mc : Option (List Str)} {df : Df} {i : Nat} (hi : i < nrows df) :
    sliceDf i (mergeStep mc df) = mergeStep mc (sliceDf i df) := by
  cases mc with
  | none => rfl
  | some mcl =>
    simp only [mergeStep]
    by_cases hlen : mcl.length > 1
    · rw [if_pos hlen, if_pos hlen]
      have hanysl : ∀ n : Str, (sliceDf i df).cols.any (fun col => col.1 == n) =
          df.cols.any (fun col => col.1 == n) := by
        intro n
        rw [show (sliceDf i df).cols = df.cols.map (sliceCol i) from rfl, List.any_map]
        rfl
      have hvalid : mcl.filter (fun c => (sliceDf i df).cols.any (fun col => col.1 == c)) =
          mcl.filter (fun c => df.cols.any (fun col => col.1 == c)) :=
        List.filter_congr (fun c _ => hanysl c)
      rw [hvalid]
      by_cases hv : (mcl.filter (fun c => df.cols.any (fun col => col.1 == c))).length > 1
      · rw [if_pos hv, if_pos hv]
        have hne : df.cols ≠ [] := by
          intro hh
          rw [nrows, hh] at hi
          exact absurd hi (by simp)
        have hnr : nrows (sliceDf i df) = 1 := by
          rw [nrows, sliceDf, mkCols]
          cases hcols : df.cols with
          | nil => exact absurd hcols hne
          | cons c cs => rfl
        rw [hnr]
        generalize mcl.filter (fun c => df.cols.any (fun col => col.1 == c)) = valid
        have hcells : (List.range 1).map (fun j => Value.str (joinSep brS
              (valid.map (fun c => pyStr (cellByName (sliceDf i df) c j))))) =
            [((List.range (nrows df)).map (fun j => Value.str (joinSep brS
              (valid.map (fun c => pyStr (cellByName df c j)))))).getD i Value.none] := by
          rw [getD_range_map hi]
          show [Value.str (joinSep brS
            (valid.map (fun c => pyStr (cellByName (sliceDf i df) c 0))))] = _
          have hmap : valid.map (fun c => pyStr (cellByName (sliceDf i df) c 0)) =
              valid.map (fun c => pyStr (cellByName df c i)) :=
            List.map_congr_left (fun c _ => by rw [cellByName_slice])
          rw [hmap]
        rw [hcells]
        generalize (List.range (nrows df)).map (fun j => Value.str (joinSep brS
          (valid.map (fun c => pyStr (cellByName df c j))))) = cells
        generalize joinSep ampSep valid = nn
        have hac : (assignCol df nn cells).cols.map (sliceCol i) =
            (assignCol (sliceDf i df) nn [cells.getD i Value.none]).cols :=
          congrArg Df.cols (@slice_assign df nn cells i)
        rw [sliceDf, mkCols, slice_mkMatch, slice_filter_contains, hac]
      · rw [if_neg hv, if_neg hv]
    · rw [if_neg hlen, if_neg hlen]

theorem slice_drop {dcl : List Str} {df : Df} {i : Nat} :
    sliceDf i (dropStep dcl df) = dropStep dcl (sliceDf i df) := by
  rw [dropStep, dropStep]
  cases hd : dcl.isEmpty with
  | true => rw [if_pos rfl, if_pos rfl]
  | false =>
    rw [if_neg (by simp), if_neg (by simp)]
    show Df.mk ((df.cols.filter (fun c => !(dcl.contains c.1))).map (sliceCol i)) =
      Df.mk ((df.cols.map (sliceCol i)).filter (fun c => !(dcl.contains c.1)))
    rw [slice_filter_contains]

/-! ## Shape of `processDataframe` and row-preservation -/

theorem proc_decomp {w : World} {tc mc dc : Option (List Str)} {df out : Df}
    (h : processDataframe w tc mc dc df = Except.ok out) :
    ∃ cols1 cols2, structPass df.cols = Except.ok cols1 ∧
      imgPass w cols1 = Except.ok cols2 ∧
      out = dropStep (dc.getD []) (mergeStep mc
        ⟨txtPass (tc.getD defaultTextualCols) cols2⟩) := by
  simp only [processDataframe] at h
  cases h1 : structPass df.cols with
  | error e =>
    simp only [h1, exceptBind_err] at h
    exact absurd h (by simp)
  | ok cols1 =>
    simp only [h1, exceptBind_ok] at h
    cases h2 : imgPass w cols1 with
    | error e =>
      simp only [h2, exceptBind_err] at h
      exact absurd h (by simp)
    | ok cols2 =>
      simp only [h2, exceptBind_ok] at h
      refine ⟨cols1, cols2, rfl, h2, ?_⟩
      have hh : (Except.ok (dropStep (dc.getD []) (mergeStep mc
          ⟨txtPass (tc.getD defaultTextualCols) cols2⟩)) : Except PyErr Df) =
          Except.ok out := h
      cases hh
      rfl

theorem forall₂_len_nrows {cols cols' : List (Str × List Value)} {n : Nat}
    (h : List.Forall₂ (fun c b => b.1 = c.1 ∧ b.2.length = c.2.length) cols cols')
    (hwf : ∀ c ∈ cols, c.2.length = n) : ∀ b ∈ cols', b.2.length = n := by
  intro b hb
  obtain ⟨a, ha, hab⟩ := forall₂_mem_right h hb
  rw [hab.2, hwf a ha]

theorem forall₂_names {cols cols' : List (Str × List Value)}
    (h : List.Forall₂ (fun c b => b.1 = c.1 ∧ b.2.length = c.2.length) cols cols') :
    cols'.map Prod.fst = cols.map Prod.fst := by
  induction h with
  | nil => rfl
  | cons hR hrest ih =>
    rw [List.map_cons, List.map_cons, hR.1, ih]

theorem txtPass_wf {tcl : List Str} {cols : List (Str × List Value)} {n : Nat}
    (h : ∀ c ∈ cols, c.2.length = n) : ∀ c ∈ txtPass tcl cols, c.2.length = n := by
  intro c hc
  rw [txtPass] at hc
  obtain ⟨a, ha, hae⟩ := List.mem_map.mp hc
  by_cases hP : isTextualCol tcl a.1 = true
  · rw [if_pos hP] at hae
    subst hae
    show (a.2.map processTextualValue).length = n
    rw [List.length_map]
    exact h a ha
  · rw [if_neg hP] at hae
    subst hae
    exact h a ha

theorem txtPass_names {tcl : List Str} {cols : List (Str × List Value)} :
    (txtPass tcl cols).map Prod.fst = cols.map Prod.fst := by
  rw [txtPass, List.map_map]
  apply List.map_congr_left
  intro c _
  show ((if isTextualCol tcl c.1 then (c.1, c.2.map processTextualValue) else c) :
    Str × List Value).1 = c.1
  by_cases hP : isTextualCol tcl c.1 = true
  · rw [if_pos hP]
  · rw [if_neg hP]

theorem txtPass_length {tcl : List Str} {cols : List (Str × List Value)} :
    (txtPass tcl cols).length = cols.length := by
  rw [txtPass, List.length_map]

theorem assign_wf {df : Df} {n : Str} {cells : List Value} {k : Nat}
    (hwf : ∀ c ∈ df.cols, c.2.length = k) (hc : cells.length = k) :
    ∀ c ∈ (assignCol df n cells).cols, c.2.length = k := by
  intro c hcmem
  rw [assignCol] at hcmem
  by_cases ha : df.cols.any (fun c => c.1 == n) = true
  · rw [if_pos ha, mkCols] at hcmem
    obtain ⟨a, hamem, hae⟩ := List.mem_map.mp hcmem
    by_cases han : (a.1 == n) = true
    · rw [if_pos han] at hae
      subst hae
      exact hc
    · rw [if_neg han] at hae
      subst hae
      exact hwf a hamem
  · rw [if_neg ha, mkCols] at hcmem
    rcases List.mem_append.mp hcmem with hm | hm
    · exact hwf c hm
    · have : c = (n, cells) := List.mem_singleton.mp hm
      subst this
      exact hc

theorem mergeStep_wf {mc : Option (List Str)} {df : Df} (hwf : WFdf df) :
    ∀ c ∈ (mergeStep mc df).cols, c.2.length = nrows df := by
  cases mc with
  | none => exact hwf
  | some mcl =>
    simp only [mergeStep]
    by_cases hlen : mcl.length > 1
    · rw [if_pos hlen]
      by_cases hv : (mcl.filter (fun c => df.cols.any (fun col => col.1 == c))).length > 1
      · rw [if_pos hv]
        generalize mcl.filter (fun c => df.cols.any (fun col => col.1 == c)) = valid
        intro c hc
        simp only [mkCols] at hc
        have hcellen : ((List.range (nrows df)).map (fun j => Value.str (joinSep brS
            (valid.map (fun cc => pyStr (cellByName df cc j)))))).length = nrows df := by
          rw [List.length_map, List.length_range]
        have hdf1 := @assign_wf df (joinSep ampSep valid) _ (nrows df) hwf hcellen
        have hdf2 : ∀ b ∈ (assignCol df (joinSep ampSep valid)
            ((List.range (nrows df)).map (fun j => Value.str (joinSep brS
              (valid.map (fun cc => pyStr (cellByName df cc j))))))).cols.filter
            (fun b => !(valid.contains b.1)), b.2.length = nrows df :=
          fun b hb => hdf1 b (List.mem_of_mem_filter hb)
        rcases List.mem_append.mp hc with hm | hm
        · cases hfo : (assignCol df (joinSep ampSep valid)
              ((List.range (nrows df)).map (fun j => Value.str (joinSep brS
                (valid.map (fun cc => pyStr (cellByName df cc j))))))).cols.filter
              (fun b => !(valid.contains b.1)) |>.find? (fun b => b.1 == joinSep ampSep valid) with
          | none =>
            rw [hfo] at hm
            exact absurd hm (by simp)
          | some d =>
            rw [hfo, matchOpt_some] at hm
            have hd : c = d := List.mem_singleton.mp hm
            subst hd
            exact hdf2 c (List.mem_of_find?_eq_some hfo)
        · exact hdf2 c (List.mem_of_mem_filter hm)
      · rw [if_neg hv]
        exact hwf
    · rw [if_neg hlen]
      exact hwf

theorem dropStep_wf {dcl : List Str} {df : Df} {k : Nat}
    (hwf : ∀ c ∈ df.cols, c.2.length = k) :
    ∀ c ∈ (dropStep dcl df).cols, c.2.length = k := by
  rw [dropStep]
  by_cases hd : dcl.isEmpty = true
  · rw [if_pos hd]
    exact hwf
  · rw [if_neg hd, mkCols]
    exact fun c hc => hwf c (List.mem_of_mem_filter hc)

theorem proc_parts {w : World} {tc mc dc : Option (List Str)} {df out : Df}
    (hwf : WFdf df) (h : processDataframe w tc mc dc df = Except.ok out) :
    ∃ cols1 cols2,
      mapE (fun c => if (fun (_ : Str) => true) c.1 then (do
        let cs ← mapE dumpIfStruct c.2
        pure (c.1, cs)) else pure c) df.cols = Except.ok cols1 ∧
      mapE (fun c => if isImgName c.1 then (do
        let cs ← mapE (imgCell w) c.2
        pure (c.1, cs)) else pure c) cols1 = Except.ok cols2 ∧
      out = dropStep (dc.getD []) (mergeStep mc
        ⟨txtPass (tc.getD defaultTextualCols) cols2⟩) ∧
      (∀ c ∈ cols1, c.2.length = nrows df) ∧
      (∀ c ∈ cols2, c.2.length = nrows df) ∧
      nrows ⟨txtPass (tc.getD defaultTextualCols) cols2⟩ = nrows df ∧
      WFdf ⟨txtPass (tc.getD defaultTextualCols) cols2⟩ := by
  obtain ⟨cols1, cols2, h1, h2, hout⟩ := proc_decomp h
  have h1u : mapE (fun c => if (fun (_ : Str) => true) c.1 then (do
      let cs ← mapE dumpIfStruct c.2
      pure (c.1, cs)) else pure c) df.cols = Except.ok cols1 := by
    rw [← structPass_uniform]
    exact h1
  have h2u : mapE (fun c => if isImgName c.1 then (do
      let cs ← mapE (imgCell w) c.2
      pure (c.1, cs)) else pure c) cols1 = Except.ok cols2 := h2
  have wf1 := forall₂_len_nrows
    (namePassE_shape (g := dumpIfStruct) (P := fun _ => true) h1u) hwf
  have wf2 := forall₂_len_nrows
    (namePassE_shape (g := imgCell w) (P := isImgName) h2u) wf1
  have wf3 := @txtPass_wf (tc.getD defaultTextualCols) cols2 (nrows df) wf2
  have hlen3 : (txtPass (tc.getD defaultTextualCols) cols2).length = df.cols.length := by
    rw [txtPass_length, mapE_ok_length h2u, mapE_ok_length h1u]
  have hnr3 : nrows ⟨txtPass (tc.getD defaultTextualCols) cols2⟩ = nrows df := by
    cases hc3 : txtPass (tc.getD defaultTextualCols) cols2 with
    | nil =>
      have hdl : df.cols.length = 0 := by
        rw [← hlen3, hc3]
        rfl
      have hdnil : df.cols = [] := List.length_eq_zero.mp hdl
      show (0 : Nat) = nrows df
      rw [nrows, hdnil]
    | cons c0 cs0 =>
      have hc0 : c0.2.length = nrows df := wf3 c0 (by
        rw [hc3]
        exact List.mem_cons_self _ _)
      show nrows ⟨c0 :: cs0⟩ = nrows df
      rw [show nrows ⟨c0 :: cs0⟩ = c0.2.length from rfl, hc0]
  have hwf3 : WFdf ⟨txtPass (tc.getD defaultTextualCols) cols2⟩ := by
    intro c hc
    rw [hnr3]
    exact wf3 c hc
  exact ⟨cols1, cols2, h1u, h2u, hout, wf1, wf2, hnr3, hwf3⟩

theorem proc_wf {w : World} {tc mc dc : Option (List Str)} {df out : Df}
    (hwf : WFdf df) (h : processDataframe w tc mc dc df = Except.ok out) :
    ∀ c ∈ out.cols, c.2.length = nrows df := by
  obtain ⟨cols1, cols2, _, _, hout, _, wf2, hnr3, hwf3⟩ := proc_parts hwf h
  have wf4 := @mergeStep_wf mc ⟨txtPass (tc.getD defaultTextualCols) cols2⟩ hwf3
  have wf4' : ∀ c ∈ (mergeStep mc ⟨txtPass (tc.getD defaultTextualCols) cols2⟩).cols,
      c.2.length = nrows df := by
    intro c hc
    rw [← hnr3]
    exact wf4 c hc
  have wf5 := @dropStep_wf (dc.getD [])
    (mergeStep mc ⟨txtPass (tc.getD defaultTextualCols) cols2⟩) (nrows df) wf4'
  rw [hout]
  exact wf5

theorem proc_slice {w : World} {tc mc dc : Option (List Str)} {df out : Df} {i : Nat}
    (hwf : WFdf df) (h : processDataframe w tc mc dc df = Except.ok out)
    (hi : i < nrows df) :
    processDataframe w tc mc dc (sliceDf i df) = Except.ok (sliceDf i out) := by
  obtain ⟨cols1, cols2, h1u, h2u, hout, wf1, wf2, hnr3, _⟩ := proc_parts hwf h
  have hlen0 : ∀ c ∈ df.cols, i < c.2.length := by
    intro c hc
    rw [hwf c hc]
    exact hi
  have hlen1 : ∀ c ∈ cols1, i < c.2.length := by
    intro c hc
    rw [wf1 c hc]
    exact hi
  have hlen2 : ∀ c ∈ cols2, i < c.2.length := by
    intro c hc
    rw [wf2 c hc]
    exact hi
  have hs1 := namePassE_slice (g := dumpIfStruct) (P := fun _ => true) h1u hlen0
  have hs2 := namePassE_slice (g := imgCell w) (P := isImgName) h2u hlen1
  have hs3 := @txtPass_slice (tc.getD defaultTextualCols) cols2 i hlen2
  have hi3 : i < nrows ⟨txtPass (tc.getD defaultTextualCols) cols2⟩ := by
    rw [hnr3]
    exact hi
  have hs4 := @slice_merge mc ⟨txtPass (tc.getD defaultTextualCols) cols2⟩ i hi3
  have hs5 := @slice_drop (dc.getD [])
    (mergeStep mc ⟨txtPass (tc.getD defaultTextualCols) cols2⟩) i
  simp only [processDataframe]
  have hs1' : structPass (sliceDf i df).cols = Except.ok (cols1.map (sliceCol i)) := by
    rw [show (sliceDf i df).cols = df.cols.map (sliceCol i) from rfl, structPass_uniform]
    exact hs1
  simp only [hs1', exceptBind_ok]
  have hs2' : imgPass w (cols1.map (sliceCol i)) =
      Except.ok (cols2.map (sliceCol i)) := hs2
  simp only [hs2', exceptBind_ok]
  rw [hs3]
  rw [show Df.mk ((txtPass (tc.getD defaultTextualCols) cols2).map (sliceCol i)) =
    sliceDf i (Df.mk (txtPass (tc.getD defaultTextualCols) cols2)) from rfl]
  rw [← hs4, ← hs5, hout]
  rfl

/-! ## Merge semantics (names, cells, no-op) -/

theorem mergeNamesF_merge {mcl ns : List Str}
    (hnn : joinSep ampSep (mcl.filter (fun c => ns.contains c)) ∉ ns)
    (hv : 1 < (mcl.filter (fun c => ns.contains c)).length) :
    mergeNamesF (some mcl) ns =
      joinSep ampSep (mcl.filter (fun c => ns.contains c)) ::
        ns.filter (fun n => !((mcl.filter (fun c => ns.contains c)).contains n)) := by
  have hlen : mcl.length > 1 := lt_of_lt_of_le hv (List.length_filter_le _ _)
  simp only [mergeNamesF]
  rw [if_pos hlen, if_pos hv]
  have hvsub : ∀ c ∈ mcl.filter (fun c => ns.contains c), c ∈ ns := by
    intro c hc
    have hp : ns.contains c = true := List.of_mem_filter hc
    exact List.mem_of_elem_eq_true hp
  generalize hvg : mcl.filter (fun c => ns.contains c) = valid at hnn hvsub ⊢
  generalize hng : joinSep ampSep valid = nn at hnn ⊢
  have hnsc : ns.contains nn = false := not_contains_of_not_mem hnn
  rw [hnsc, if_neg (show ¬(false = true) by simp)]
  have hnm : nn ∉ valid := fun hm => hnn (hvsub nn hm)
  rw [List.filter_append]
  have hfnn : ([nn] : List Str).filter (fun n => !(valid.contains n)) = [nn] := by
    simp [hnm]
  rw [hfnn]
  have hcc : ((ns.filter (fun n => !(valid.contains n))) ++ [nn]).contains nn = true :=
    List.elem_eq_true_of_mem (List.mem_append_right _ (List.mem_singleton.mpr rfl))
  rw [hcc, if_pos rfl, List.filter_append]
  have hq1 : ([nn] : List Str).filter (fun n => !(n == nn)) = [] := by simp
  have hq2 : (ns.filter (fun n => !(valid.contains n))).filter (fun n => !(n == nn)) =
      ns.filter (fun n => !(valid.contains n)) := by
    apply List.filter_eq_self.mpr
    intro a ha
    have hans : a ∈ ns := List.mem_of_mem_filter ha
    have hne : a ≠ nn := fun he => hnn (he ▸ hans)
    simp [hne]
  rw [hq1, hq2, List.append_nil]
  rfl

theorem mergeStep_noop {mcl : List Str} {df : Df}
    (hv : (mcl.filter (fun c => (namesOf df).contains c)).length ≤ 1) :
    mergeStep (some mcl) df = df := by
  simp only [namesOf] at hv
  simp only [mergeStep]
  by_cases hlen : mcl.length > 1
  · rw [if_pos hlen]
    have hvalid : mcl.filter (fun c => df.cols.any (fun col => col.1 == c)) =
        mcl.filter (fun c => (df.cols.map Prod.fst).contains c) :=
      List.filter_congr (fun c _ => anyName_eq)
    rw [hvalid, if_neg (by omega)]
  · rw [if_neg hlen]

theorem mergeStep_cells {mcl : List Str} {df : Df}
    (hnn : joinSep ampSep (mcl.filter (fun c => (namesOf df).contains c)) ∉ namesOf df)
    (hv : 1 < (mcl.filter (fun c => (namesOf df).contains c)).length)
    {i : Nat} (hi : i < nrows df) :
    cellByName (mergeStep (some mcl) df)
        (joinSep ampSep (mcl.filter (fun c => (namesOf df).contains c))) i =
      Value.str (joinSep brS ((mcl.filter (fun c => (namesOf df).contains c)).map
        (fun c => pyStr (cellByName df c i)))) := by
  simp only [namesOf] at hnn hv ⊢
  have hlen : mcl.length > 1 := lt_of_lt_of_le hv (List.length_filter_le _ _)
  simp only [mergeStep]
  have hvalid : mcl.filter (fun c => df.cols.any (fun col => col.1 == c)) =
      mcl.filter (fun c => (df.cols.map Prod.fst).contains c) :=
    List.filter_congr (fun c _ => anyName_eq)
  rw [if_pos hlen, hvalid, if_pos hv]
  generalize hvg : mcl.filter (fun c => (df.cols.map Prod.fst).contains c) = valid
    at hnn hv ⊢
  generalize hng : joinSep ampSep valid = nn at hnn ⊢
  have hanyf : df.cols.any (fun c => c.1 == nn) = false := by
    rw [anyName_eq]
    exact not_contains_of_not_mem hnn
  rw [cellByName]
  simp only [mkCols]
  rw [assignCol, hanyf, if_neg (show ¬(false = true) by simp)]
  simp only [mkCols]
  generalize hcg : (List.range (nrows df)).map (fun j => Value.str (joinSep brS
    (valid.map (fun c => pyStr (cellByName df c j))))) = cells at *
  rw [List.filter_append]
  have hnm : nn ∉ valid := by
    intro hm
    apply hnn
    have h1 : nn ∈ mcl.filter (fun c => (df.cols.map Prod.fst).contains c) := by
      rw [hvg]
      exact hm
    have h2 : (df.cols.map Prod.fst).contains nn = true := List.of_mem_filter h1
    exact List.mem_of_elem_eq_true h2
  have hrnn : ([(nn, cells)] : List (Str × List Value)).filter
      (fun c => !(valid.contains c.1)) = [(nn, cells)] := by
    simp [hnm]
  rw [hrnn]
  have hfindl : (df.cols.filter (fun c => !(valid.contains c.1))).find?
      (fun c => c.1 == nn) = none := by
    rw [List.find?_eq_none]
    intro c hc hbeq
    have hcmem : c ∈ df.cols := List.mem_of_mem_filter hc
    have hmm : c.1 ∈ df.cols.map Prod.fst := List.mem_map.mpr ⟨c, hcmem, rfl⟩
    exact hnn (eq_of_beq hbeq ▸ hmm)
  have hfind : ((df.cols.filter (fun c => !(valid.contains c.1))) ++
      [(nn, cells)]).find? (fun c => c.1 == nn) = some (nn, cells) := by
    rw [find?_append_none hfindl]
    exact List.find?_cons_of_pos _ (beq_self_eq_true nn)
  rw [hfind, matchOpt_some]
  have hfind2 : (((nn, cells) : Str × List Value) :: ((df.cols.filter
      (fun c => !(valid.contains c.1))) ++ [(nn, cells)]).filter
      (fun c => !(c.1 == nn))).find? (fun c => c.1 == nn) = some (nn, cells) :=
    List.find?_cons_of_pos _ (beq_self_eq_true nn)
  rw [show (([(nn, cells)] : List (Str × List Value)) ++ ((df.cols.filter
      (fun c => !(valid.contains c.1))) ++ [(nn, cells)]).filter
      (fun c => !(c.1 == nn))) = (((nn, cells) : Str × List Value) :: ((df.cols.filter
      (fun c => !(valid.contains c.1))) ++ [(nn, cells)]).filter
      (fun c => !(c.1 == nn))) from rfl, hfind2, matchCell_some]
  rw [show (((nn, cells) : Str × List Value)).2 = cells from rfl]
  rw [← hcg, getD_range_map hi]

/-! ## Name pipeline and row-selection lemmas -/

theorem proc_names {w : World} {tc mc dc : Option (List Str)} {df out : Df}
    (h : processDataframe w tc mc dc df = Except.ok out) :
    namesOf out = dropNamesF (dc.getD []) (mergeNamesF mc (namesOf df)) := by
  obtain ⟨cols1, cols2, h1, h2, hout⟩ := proc_decomp h
  have h1u : mapE (fun c => if (fun (_ : Str) => true) c.1 then (do
      let cs ← mapE dumpIfStruct c.2
      pure (c.1, cs)) else pure c) df.cols = Except.ok cols1 := by
    rw [← structPass_uniform]
    exact h1
  have hn1 : cols1.map Prod.fst = df.cols.map Prod.fst :=
    forall₂_names (namePassE_shape (g := dumpIfStruct) (P := fun _ => true) h1u)
  have hn2 : cols2.map Prod.fst = cols1.map Prod.fst :=
    forall₂_names (namePassE_shape (g := imgCell w) (P := isImgName) h2)
  have hn3 : (txtPass (tc.getD defaultTextualCols) cols2).map Prod.fst =
      df.cols.map Prod.fst := by
    rw [txtPass_names, hn2, hn1]
  have hfin : namesOf (Df.mk (txtPass (tc.getD defaultTextualCols) cols2)) =
      namesOf df := by
    rw [namesOf, namesOf, mkCols]
    exact hn3
  rw [hout, dropStep_names,
    @mergeStep_names mc ⟨txtPass (tc.getD defaultTextualCols) cols2⟩, hfin]

theorem names_sel {sel : List Nat} {df : Df} : namesOf (selDf sel df) = namesOf df := by
  rw [selDf, namesOf, namesOf, mkCols, List.map_map]
  apply List.map_congr_left
  intro c _
  rfl

theorem selDf_wf {sel : List Nat} {df : Df} : WFdf (selDf sel df) := by
  intro c hc
  obtain ⟨a, ha, hae⟩ := List.mem_map.mp hc
  subst hae
  show (sel.map fun i => a.2.getD i Value.none).length = nrows (selDf sel df)
  rw [List.length_map]
  cases hcols : df.cols with
  | nil =>
    rw [hcols] at ha
    exact absurd ha (by simp)
  | cons c0 cs =>
    show sel.length = nrows (selDf sel df)
    rw [selDf, hcols]
    show sel.length = (sel.map (fun i => c0.2.getD i Value.none)).length
    rw [List.length_map]

theorem nrows_sel {sel : List Nat} {df : Df} (hne : df.cols ≠ []) :
    nrows (selDf sel df) = sel.length := by
  cases hcols : df.cols with
  | nil => exact absurd hcols hne
  | cons c0 cs =>
    rw [selDf, hcols]
    show (sel.map (fun i => c0.2.getD i Value.none)).length = sel.length
    rw [List.length_map]

theorem slice_sel {sel : List Nat} {df : Df} {j : Nat} (hj : j < sel.length) :
    sliceDf j (selDf sel df) = sliceDf (sel.getD j 0) df := by
  rw [sliceDf, sliceDf, selDf, mkCols, List.map_map]
  apply congrArg Df.mk
  apply List.map_congr_left
  intro c _
  show sliceCol j (c.1, sel.map (fun i => c.2.getD i Value.none)) =
    sliceCol (sel.getD j 0) c
  rw [sliceCol, sliceCol]
  rw [show ((c.1, sel.map (fun i => c.2.getD i Value.none)) :
    Str × List Value).2 = sel.map (fun i => c.2.getD i Value.none) from rfl]
  rw [getD_map_gen hj 0]

/-- C6: when at least two of the requested merge columns are present in the
frame (and the `" & "`-joined name is fresh), the merge pass produces exactly
one new column under that joined name, positioned first among the columns,
whose row-`i` cell is the `<br>`-joined string rendering of the present source
cells of row `i`, and the source columns are removed; when fewer than two of
the requested names are present, the merge pass returns the frame unchanged. -/
theorem claim_C6 (mcl : List Str) (df : Df)
    (hnn : joinSep ampSep (mcl.filter (fun c => (namesOf df).contains c)) ∉ namesOf df) :
    (1 < (mcl.filter (fun c => (namesOf df).contains c)).length →
      namesOf (mergeStep (some mcl) df) =
        joinSep ampSep (mcl.filter (fun c => (namesOf df).contains c)) ::
          (namesOf df).filter (fun n =>
            !((mcl.filter (fun c => (namesOf df).contains c)).contains n)) ∧
      (∀ i, i < nrows df →
        cellByName (mergeStep (some mcl) df)
            (joinSep ampSep (mcl.filter (fun c => (namesOf df).contains c))) i =
          Value.str (joinSep brS ((mcl.filter (fun c => (namesOf df).contains c)).map
            (fun c => pyStr (cellByName df c i))))) ∧
      (∀ c ∈ mcl.filter (fun c => (namesOf df).contains c),
        c ∉ namesOf (mergeStep (some mcl) df))) ∧
    ((mcl.filter (fun c => (namesOf df).contains c)).length ≤ 1 →
      mergeStep (some mcl) df = df) := by
  constructor
  · intro hv
    have hnames : namesOf (mergeStep (some mcl) df) =
        joinSep ampSep (mcl.filter (fun c => (namesOf df).contains c)) ::
          (namesOf df).filter (fun n =>
            !((mcl.filter (fun c => (namesOf df).contains c)).contains n)) := by
      rw [@mergeStep_names (some mcl) df]
      exact mergeNamesF_merge hnn hv
    refine ⟨hnames, fun i hi => mergeStep_cells hnn hv hi, ?_⟩
    intro c hc hmem
    rw [hnames] at hmem
    have hcont : (namesOf df).contains c = true := List.of_mem_filter hc
    have hcmem : c ∈ namesOf df := List.mem_of_elem_eq_true hcont
    rcases List.mem_cons.mp hmem with he | hf
    · exact hnn (he ▸ hcmem)
    · have hflt := List.of_mem_filter hf
      have h2 : (mcl.filter (fun c => (namesOf df).contains c)).contains c = true :=
        List.elem_eq_true_of_mem hc
      rw [h2] at hflt
      simp at hflt
  · exact mergeStep_noop

/-- C6 witness: merging the two present columns `a`, `b` of a concrete
two-column frame yields the fresh front column `a & b`. -/
theorem claim_C6_witness :
    (joinSep ampSep ([strL "a", strL "b"].filter (fun c =>
        (namesOf (Df.mk [(strL "a", [Value.str (strL "x")]),
          (strL "b", [Value.str (strL "y")])])).contains c)) ∉
      namesOf (Df.mk [(strL "a", [Value.str (strL "x")]),
        (strL "b", [Value.str (strL "y")])])) ∧
    namesOf (mergeStep (some [strL "a", strL "b"])
        (Df.mk [(strL "a", [Value.str (strL "x")]),
          (strL "b", [Value.str (strL "y")])])) = [strL "a & b"] := by
  refine ⟨by decide, ?_⟩
  have h := ((claim_C6 [strL "a", strL "b"]
    (Df.mk [(strL "a", [Value.str (strL "x")]), (strL "b", [Value.str (strL "y")])])
    (by decide)).1 (by decide)).1
  exact h.trans (by decide)

/-- C7: the column transformation of `process_dataframe` preserves row count
(every output column has as many cells as the input frame has rows) and row
order (processing the single-row slice at index `i` of the input yields
exactly the single-row slice at index `i` of the output). -/
theorem claim_C7 {w : World} {tc mc dc : Option (List Str)} {df out : Df}
    (hwf : WFdf df) (h : processDataframe w tc mc dc df = Except.ok out) :
    (∀ c ∈ out.cols, c.2.length = nrows df) ∧
    ∀ i, i < nrows df →
      processDataframe w tc mc dc (sliceDf i df) = Except.ok (sliceDf i out) :=
  ⟨proc_wf hwf h, fun _ hi => proc_slice hwf h hi⟩

/-- C7 witness: a concrete two-row frame processed with the all-failing world
and default options. -/
theorem claim_C7_witness :
    WFdf (Df.mk [(strL "a", [Value.str (strL "x"), Value.str (strL "y")])]) ∧
    processDataframe wErr Option.none Option.none Option.none
        (Df.mk [(strL "a", [Value.str (strL "x"), Value.str (strL "y")])]) =
      Except.ok (Df.mk [(strL "a", [Value.str (strL "x"), Value.str (strL "y")])]) ∧
    ((∀ c ∈ (Df.mk [(strL "a", [Value.str (strL "x"), Value.str (strL "y")])]).cols,
        c.2.length = nrows (Df.mk [(strL "a",
          [Value.str (strL "x"), Value.str (strL "y")])])) ∧
      ∀ i, i < nrows (Df.mk [(strL "a", [Value.str (strL "x"), Value.str (strL "y")])]) →
        processDataframe wErr Option.none Option.none Option.none
            (sliceDf i (Df.mk [(strL "a", [Value.str (strL "x"),
              Value.str (strL "y")])])) =
          Except.ok (sliceDf i (Df.mk [(strL "a", [Value.str (strL "x"),
            Value.str (strL "y")])]))) :=
  ⟨by decide, rfl, claim_C7 (by decide) rfl⟩

/-- C1: the display set (an arbitrary row selection of the input, as produced
by `df.sample`) and the full set undergo identical column transformations:
when both process successfully, the output column-name lists coincide, and
each selected row renders to exactly the same single-row slice as the
corresponding row of the fully-processed set; only row cardinality differs. -/
theorem claim_C1 {w : World} {tc mc dc : Option (List Str)} {sel : List Nat}
    {df out₁ out₂ : Df} (hwf : WFdf df)
    (h1 : processDataframe w tc mc dc df = Except.ok out₁)
    (h2 : processDataframe w tc mc dc (selDf sel df) = Except.ok out₂) :
    namesOf out₂ = namesOf out₁ ∧
    ∀ j, j < sel.length → sel.getD j 0 < nrows df →
      sliceDf j out₂ = sliceDf (sel.getD j 0) out₁ := by
  constructor
  · rw [proc_names h2, proc_names h1, names_sel]
  · intro j hj hjr
    have hne : df.cols ≠ [] := by
      intro hh
      rw [nrows, hh] at hjr
      exact absurd hjr (by simp)
    have hps1 := proc_slice hwf h1 hjr
    have hwr : j < nrows (selDf sel df) := by
      rw [nrows_sel hne]
      exact hj
    have hps2 := proc_slice selDf_wf h2 hwr
    rw [slice_sel hj] at hps2
    have hok := hps1.symm.trans hps2
    have hinj : sliceDf (sel.getD j 0) out₁ = sliceDf j out₂ := by
      simpa using hok
    exact hinj.symm

/-- C1 witness: a two-row frame and the reversing selection `[1, 0]`. -/
theorem claim_C1_witness :
    WFdf (Df.mk [(strL "a", [Value.str (strL "x"), Value.str (strL "y")])]) ∧
    processDataframe wErr Option.none Option.none Option.none
        (Df.mk [(strL "a", [Value.str (strL "x"), Value.str (strL "y")])]) =
      Except.ok (Df.mk [(strL "a", [Value.str (strL "x"), Value.str (strL "y")])]) ∧
    processDataframe wErr Option.none Option.none Option.none
        (selDf [1, 0] (Df.mk [(strL "a", [Value.str (strL "x"),
          Value.str (strL "y")])])) =
      Except.ok (selDf [1, 0] (Df.mk [(strL "a", [Value.str (strL "x"),
        Value.str (strL "y")])])) ∧
    (namesOf (selDf [1, 0] (Df.mk [(strL "a", [Value.str (strL "x"),
        Value.str (strL "y")])])) =
      namesOf (Df.mk [(strL "a", [Value.str (strL "x"), Value.str (strL "y")])]) ∧
    ∀ j, j < ([1, 0] : List Nat).length →
      ([1, 0] : List Nat).getD j 0 <
        nrows (Df.mk [(strL "a", [Value.str (strL "x"), Value.str (strL "y")])]) →
      sliceDf j (selDf [1, 0] (Df.mk [(strL "a", [Value.str (strL "x"),
          Value.str (strL "y")])])) =
        sliceDf (([1, 0] : List Nat).getD j 0)
          (Df.mk [(strL "a", [Value.str (strL "x"), Value.str (strL "y")])])) :=
  ⟨by decide, rfl, rfl,
    @claim_C1 wErr Option.none Option.none Option.none [1, 0]
      (Df.mk [(strL "a", [Value.str (strL "x"), Value.str (strL "y")])])
      (Df.mk [(strL "a", [Value.str (strL "x"), Value.str (strL "y")])])
      (selDf [1, 0] (Df.mk [(strL "a", [Value.str (strL "x"),
        Value.str (strL "y")])]))
      (by decide) rfl rfl⟩

/-! ## Fisher-Yates resampling -/

theorem getD_set_self {l : List Nat} {i v : Nat} (h : i < l.length) :
    (l.set i v).getD i 0 = v := by
  induction l generalizing i with
  | nil => simp at h
  | cons a as ih =>
    cases i with
    | zero => rfl
    | succ k => simpa using ih (by simpa using h)

theorem getD_set_other {l : List Nat} {i j v : Nat} (h : i ≠ j) :
    (l.set i v).getD j 0 = l.getD j 0 := by
  induction l generalizing i j with
  | nil => simp
  | cons a as ih =>
    cases i with
    | zero =>
      cases j with
      | zero => exact absurd rfl h
      | succ k => rfl
    | succ m =>
      cases j with
      | zero => rfl
      | succ k => simpa using ih (fun he => h (by rw [he]))

theorem count_set {l : List Nat} {j : Nat} (hj : j < l.length) (v x : Nat) :
    (l.set j v).count x + (if l.getD j 0 = x then 1 else 0)
      = l.count x + (if v = x then 1 else 0) := by
  induction l generalizing j with
  | nil => simp at hj
  | cons a as ih =>
    cases j with
    | zero =>
      show (v :: as).count x + (if a = x then 1 else 0)
        = (a :: as).count x + (if v = x then 1 else 0)
      rw [List.count_cons, List.count_cons]
      by_cases hva : v = x <;> by_cases haa : a = x <;>
        simp [hva, haa]
    | succ k =>
      have hk : k < as.length := by simpa using hj
      have := ih hk
      show (a :: as.set k v).count x + (if as.getD k 0 = x then 1 else 0)
        = (a :: as).count x + (if v = x then 1 else 0)
      rw [List.count_cons, List.count_cons]
      omega

theorem count_swapL {l : List Nat} {i j x : Nat} (hi : i < l.length)
    (hj : j < l.length) : (swapL l i j).count x = l.count x := by
  have hA := count_set hi (l.getD j 0) x
  have hl1 : (l.set i (l.getD j 0)).length = l.length := by simp
  have hB := count_set (l := l.set i (l.getD j 0)) (hl1.symm ▸ hj) (l.getD i 0) x
  have hgd : (l.set i (l.getD j 0)).getD j 0 = l.getD j 0 := by
    by_cases hij : i = j
    · subst hij
      exact getD_set_self hi
    · exact getD_set_other hij
  rw [hgd] at hB
  rw [swapL]
  by_cases hx1 : l.getD i 0 = x <;> by_cases hx2 : l.getD j 0 = x <;>
    simp [hx1, hx2] at hA hB ⊢ <;> omega

theorem fyLoop_perm {r : Nat → Nat} (hr : ∀ i, r i ≤ i) :
    ∀ (k : Nat) (l : List Nat), k < l.length → (fyLoop r k l).Perm l := by
  intro k
  induction k with
  | zero =>
    intro l _
    exact List.Perm.refl l
  | succ i ih =>
    intro l hk
    rw [fyLoop]
    have hswaplen : (swapL l (i + 1) (r (i + 1))).length = l.length := by
      simp [swapL]
    have h1 : (fyLoop r i (swapL l (i + 1) (r (i + 1)))).Perm
        (swapL l (i + 1) (r (i + 1))) := ih _ (by omega)
    refine h1.trans ?_
    rw [List.perm_iff_count]
    intro x
    exact count_swapL hk (by have := hr (i + 1); omega)

theorem fyShuffle_perm {r : Nat → Nat} {n : Nat} (hr : ∀ i, r i ≤ i) (hn : 0 < n) :
    (fyShuffle r n).Perm (List.range n) := by
  rw [fyShuffle]
  exact fyLoop_perm hr (n - 1) (List.range n) (by simp; omega)

theorem rows_getD_range (l : List (List Value)) :
    (List.range l.length).map (fun i => l.getD i []) = l := by
  induction l with
  | nil => rfl
  | cons a as ih =>
    rw [List.length_cons, List.range_succ_eq_map, List.map_cons, List.map_map]
    have hcomp : List.map ((fun i => (a :: as).getD i []) ∘ Nat.succ)
        (List.range as.length) = List.map (fun i => as.getD i []) (List.range as.length) :=
      List.map_congr_left (fun i _ => rfl)
    rw [hcomp, ih]
    rfl

/-- C8: invoking the client-side resample with requested size equal to the
row count of the embedded full dataset replaces the table rows with a
permutation of the full dataset (every row kept exactly once: the
Fisher-Yates pass yields a permutation of all row indices, and taking the
first `k` of them keeps all of them), and sets the row-count badge to
`k` followed by " rows". -/
theorem claim_C8 (r : Nat → Nat) (dataRows : List (List Value)) (st : TableState)
    (hr : ∀ i, r i ≤ i) (hne : 0 < dataRows.length) :
    (resampleData r dataRows (dataRows.length : Int) st).rows.Perm dataRows ∧
    (resampleData r dataRows (dataRows.length : Int) st).badge =
      strL (toString (dataRows.length : Int)) ++ strL " rows" ∧
    (fyShuffle r dataRows.length).Perm (List.range dataRows.length) := by
  have hperm := fyShuffle_perm (n := dataRows.length) hr hne
  have hcond : 0 < (dataRows.length : Int) ∧
      (dataRows.length : Int) ≤ (dataRows.length : Int) :=
    ⟨by exact_mod_cast hne, le_refl _⟩
  have hres : resampleData r dataRows (dataRows.length : Int) st =
      { rows := ((fyShuffle r dataRows.length).take
          (dataRows.length : Int).toNat).map (fun i => dataRows.getD i []),
        badge := strL (toString (dataRows.length : Int)) ++ strL " rows" } := by
    rw [resampleData, if_pos hcond]
  have hlen : (fyShuffle r dataRows.length).length = dataRows.length := by
    rw [hperm.length_eq, List.length_range]
  have htake : (fyShuffle r dataRows.length).take (dataRows.length : Int).toNat =
      fyShuffle r dataRows.length := by
    have h2 : ((dataRows.length : Int)).toNat = (fyShuffle r dataRows.length).length := by
      rw [hlen]
      simp
    rw [h2, List.take_length]
  refine ⟨?_, ?_, hperm⟩
  · rw [hres]
    show (((fyShuffle r dataRows.length).take
        (dataRows.length : Int).toNat).map (fun i => dataRows.getD i [])).Perm dataRows
    rw [htake]
    have hmap := hperm.map (fun i => dataRows.getD i [])
    rw [rows_getD_range] at hmap
    exact hmap
  · rw [hres]

/-- C8 witness: two concrete rows, the all-zero random source. -/
theorem claim_C8_witness :
    (∀ i, (fun (_ : Nat) => 0) i ≤ i) ∧
    (0 < ([[Value.str (strL "x")], [Value.str (strL "y")]] :
      List (List Value)).length) ∧
    ((resampleData (fun _ => 0) [[Value.str (strL "x")], [Value.str (strL "y")]]
        (([[Value.str (strL "x")], [Value.str (strL "y")]] :
          List (List Value)).length : Int)
        ⟨[], []⟩).rows.Perm [[Value.str (strL "x")], [Value.str (strL "y")]] ∧
      (resampleData (fun _ => 0) [[Value.str (strL "x")], [Value.str (strL "y")]]
        (([[Value.str (strL "x")], [Value.str (strL "y")]] :
          List (List Value)).length : Int)
        ⟨[], []⟩).badge =
        strL (toString ((([[Value.str (strL "x")], [Value.str (strL "y")]] :
          List (List Value)).length : Int))) ++ strL " rows" ∧
      (fyShuffle (fun _ => 0) ([[Value.str (strL "x")], [Value.str (strL "y")]] :
        List (List Value)).length).Perm
        (List.range ([[Value.str (strL "x")], [Value.str (strL "y")]] :
          List (List Value)).length)) :=
  ⟨fun i => Nat.zero_le i, by decide,
    claim_C8 (fun _ => 0) [[Value.str (strL "x")], [Value.str (strL "y")]]
      ⟨[], []⟩ (fun i => Nat.zero_le i) (by decide)⟩

end JsonViz
